import Mathlib

/-!
# go-mod-build: version resolution, archive transcoding and the module proxy folder

A shallow embedding of the packages `codehost` and `modproxyfolder`.

* Go strings are Lean strings; the library routines that work byte by byte are
  written over the character list of the string.
* External processes (`git`) and the file system are explicit values that are
  passed in and returned.
* Library routines the code calls (`strings`, `bufio`, `sort`,
  `golang.org/x/mod/semver`, `golang.org/x/mod/module`) are modelled next to
  their callers; each says which routine it stands for.
* What the code takes from its environment and the model does not compute
  (the outcome of a command, `zip.Create`, the checks of `module.CheckPath`
  and of versions, `json.Marshal`, the order `sort.Slice` gives a slice of
  more than 12 entries) is a field of `Host` or of `Toolchain`.
* The disk holds files and directories by path. Operations fail for missing
  parents, files in the place of directories and directories in the place of
  files; permissions and failing writes to an open file are not modelled.
-/

namespace GoModBuild

/-! ## Strings -/

/-- Go `unicode.IsSpace`. -/
def isSpace (c : Char) : Bool :=
  let n := c.toNat
  n == 0x09 || n == 0x0a || n == 0x0b || n == 0x0c || n == 0x0d || n == 0x20 ||
  n == 0x85 || n == 0xa0 || n == 0x1680 || (0x2000 ≤ n && n ≤ 0x200a) ||
  n == 0x2028 || n == 0x2029 || n == 0x202f || n == 0x205f || n == 0x3000

/-- Pieces of a character list between occurrences of `sep`
(`strings.Split` with a one-character separator): always at least one piece. -/
def splitOn (sep : Char) : List Char → List (List Char)
  | [] => [[]]
  | c :: cs =>
    if c = sep then [] :: splitOn sep cs
    else match splitOn sep cs with
      | [] => [[c]]
      | l :: ls => (c :: l) :: ls

/-- Inverse of `splitOn`: the pieces joined by `sep`. -/
def joinWith (sep : Char) : List (List Char) → List Char
  | [] => []
  | [l] => l
  | l :: l2 :: ls => l ++ sep :: joinWith sep (l2 :: ls)

/-- The elements of a path string between slashes. -/
def pathElems (p : String) : List String :=
  (splitOn '/' p.data).map String.mk

/-- Go `strings.Join(elems, "/")`. -/
def joinElems : List String → String
  | [] => ""
  | [e] => e
  | e :: e2 :: rest => e ++ "/" ++ joinElems (e2 :: rest)

/-- One round of the loop of Go `filepath.Clean`, on the elements written so
far: empty and `.` elements are dropped; `..` removes the last element, is
kept in front of a relative path when nothing can be removed, and is dropped
at the root. -/
def cleanStep (rooted : Bool) (out : List String) (e : String) : List String :=
  if e = "" ∨ e = "." then out
  else if e = ".." then
    match out.getLast? with
    | none => if rooted then out else [".."]
    | some top => if top = ".." then out ++ [".."] else out.dropLast
  else out ++ [e]

/-- Go `filepath.Clean` (with `/` as separator). -/
def Clean (path : String) : String :=
  if path = "" then "."
  else
    let rooted : Bool := path.data.head? == some '/'
    let out := (pathElems path).foldl (cleanStep rooted) []
    if rooted then "/" ++ joinElems out
    else if out.isEmpty then "." else joinElems out

/-- Go `filepath.Join`: leading empty elements are ignored, the rest is joined
by the separator and cleaned. -/
def Join (elems : List String) : String :=
  match elems.dropWhile (fun e => e == "") with
  | [] => ""
  | e :: rest => Clean (joinElems (e :: rest))

/-- Go `strings.Split(s, "\n")`. -/
def splitLines (s : String) : List String :=
  (splitOn '\n' s.data).map String.mk

/-- Loop of Go `strings.Fields`: `cur` is the field being read, reversed. -/
def fieldsLoop : List Char → List Char → List (List Char)
  | [], cur => if cur.isEmpty then [] else [cur.reverse]
  | c :: cs, cur =>
    if isSpace c then
      if cur.isEmpty then fieldsLoop cs [] else cur.reverse :: fieldsLoop cs []
    else fieldsLoop cs (c :: cur)

/-- Go `strings.Fields`. -/
def Fields (s : String) : List String :=
  (fieldsLoop s.data []).map String.mk

/-- Go `strings.HasPrefix`. -/
def HasPrefix (s pre : String) : Bool :=
  pre.data.isPrefixOf s.data

/-- Go `strings.HasSuffix`. -/
def HasSuffix (s suf : String) : Bool :=
  suf.data.reverse.isPrefixOf s.data.reverse

/-- Go `strings.TrimSuffix`. -/
def TrimSuffix (s suf : String) : String :=
  if HasSuffix s suf then String.mk (s.data.take (s.data.length - suf.data.length)) else s

/-- Go slice expression `s[n:]`. -/
def sliceFrom (s : String) (n : Nat) : String :=
  String.mk (s.data.drop n)

/-- Go `strings.TrimSpace` on a character list. -/
def trimSpaceChars (l : List Char) : List Char :=
  ((l.dropWhile isSpace).reverse.dropWhile isSpace).reverse

/-- Go `strings.TrimSpace` (and `bytes.TrimSpace`). -/
def TrimSpace (s : String) : String :=
  String.mk (trimSpaceChars s.data)

/-- Byte-wise `x < y` of Go strings. -/
def ltChars : List Char → List Char → Bool
  | [], [] => false
  | [], _ :: _ => true
  | _ :: _, [] => false
  | a :: as, b :: bs =>
    if a.toNat < b.toNat then true
    else if b.toNat < a.toNat then false
    else ltChars as bs

/-! ## golang.org/x/mod/semver -/

namespace semver

/-- The parsed form of a semantic version string. -/
structure parsed where
  major : List Char
  minor : List Char
  patch : List Char
  short : List Char
  prerelease : List Char
  build : List Char
deriving DecidableEq, Repr

/-- ASCII digit test `'0' <= c && c <= '9'`. -/
def isDigit (c : Char) : Bool :=
  '0'.toNat ≤ c.toNat && c.toNat ≤ '9'.toNat

/-- Function `isIdentChar` of package semver. -/
def isIdentChar (c : Char) : Bool :=
  ('A'.toNat ≤ c.toNat && c.toNat ≤ 'Z'.toNat) ||
  ('a'.toNat ≤ c.toNat && c.toNat ≤ 'z'.toNat) ||
  ('0'.toNat ≤ c.toNat && c.toNat ≤ '9'.toNat) || c == '-'

/-- Function `isNum` of package semver: all characters are digits. -/
def isNum (v : List Char) : Bool :=
  v.all isDigit

/-- Function `isBadNum` of package semver: all digits, more than one, leading zero. -/
def isBadNum (v : List Char) : Bool :=
  v.all isDigit && decide (1 < v.length) && v.head? == some '0'

/-- Function `parseInt` of package semver: the number read and the rest. -/
def parseInt (v : List Char) : Option (List Char × List Char) :=
  match v with
  | [] => none
  | c :: cs =>
    if !isDigit c then none
    else
      let ds := cs.takeWhile isDigit
      if c == '0' && !ds.isEmpty then none
      else some (c :: ds, cs.dropWhile isDigit)

/-- Loop of `parsePrerelease`: `cur` is the identifier being read (`v[start:i]`),
`acc` the characters consumed so far (`v[:i]`), both reversed. -/
def prereleaseLoop : List Char → List Char → List Char → Option (List Char × List Char)
  | [], cur, acc =>
    if cur.isEmpty || isBadNum cur.reverse then none else some (acc.reverse, [])
  | c :: cs, cur, acc =>
    if c == '+' then
      if cur.isEmpty || isBadNum cur.reverse then none else some (acc.reverse, c :: cs)
    else if !isIdentChar c && c != '.' then none
    else if c == '.' then
      if cur.isEmpty || isBadNum cur.reverse then none
      else prereleaseLoop cs [] (c :: acc)
    else prereleaseLoop cs (c :: cur) (c :: acc)

/-- Function `parsePrerelease` of package semver. -/
def parsePrerelease (v : List Char) : Option (List Char × List Char) :=
  match v with
  | [] => none
  | c :: cs => if c != '-' then none else prereleaseLoop cs [] [c]

/-- Loop of `parseBuild`. -/
def buildLoop : List Char → List Char → List Char → Option (List Char × List Char)
  | [], cur, acc => if cur.isEmpty then none else some (acc.reverse, [])
  | c :: cs, cur, acc =>
    if !isIdentChar c && c != '.' then none
    else if c == '.' then
      if cur.isEmpty then none else buildLoop cs [] (c :: acc)
    else buildLoop cs (c :: cur) (c :: acc)

/-- Function `parseBuild` of package semver. -/
def parseBuild (v : List Char) : Option (List Char × List Char) :=
  match v with
  | [] => none
  | c :: cs => if c != '+' then none else buildLoop cs [] [c]

/-- Tail of `parse` after the patch number: optional prerelease, optional build. -/
def parseTail (major minor patch v : List Char) : Option parsed :=
  let pre : Option (List Char × List Char) :=
    match v with
    | '-' :: _ => parsePrerelease v
    | _ => some ([], v)
  match pre with
  | none => none
  | some (prerelease, v1) =>
    let bld : Option (List Char × List Char) :=
      match v1 with
      | '+' :: _ => parseBuild v1
      | _ => some ([], v1)
    match bld with
    | none => none
    | some (build, v2) =>
      if v2.isEmpty then some ⟨major, minor, patch, [], prerelease, build⟩ else none

/-- Function `parse` of package semver. -/
def parse (v : List Char) : Option parsed :=
  match v with
  | 'v' :: v0 =>
    match parseInt v0 with
    | none => none
    | some (major, []) => some ⟨major, ['0'], ['0'], ".0.0".data, [], []⟩
    | some (major, '.' :: v1) =>
      match parseInt v1 with
      | none => none
      | some (minor, []) => some ⟨major, minor, ['0'], ".0".data, [], []⟩
      | some (minor, '.' :: v2) =>
        match parseInt v2 with
        | none => none
        | some (patch, v3) => parseTail major minor patch v3
      | some (_, _ :: _) => none
    | some (_, _ :: _) => none
  | _ => none

/-- Function `compareInt` of package semver. -/
def compareInt (x y : List Char) : Int :=
  if x = y then 0
  else if x.length < y.length then -1
  else if x.length > y.length then 1
  else if ltChars x y then -1 else 1

/-- Body of the `dx != dy` branch of `comparePrerelease`. -/
def compareIdent (dx dy : List Char) : Int :=
  let ix := isNum dx
  let iy := isNum dy
  if ix != iy then (if ix then -1 else 1)
  else if ix && decide (dx.length < dy.length) then -1
  else if ix && decide (dx.length > dy.length) then 1
  else if ltChars dx dy then -1 else 1

/-- The identifiers the loop of `comparePrerelease` reads from `x`: each round
drops one separator character and takes the characters up to the next `.`. -/
def identifiers : List Char → List (List Char)
  | [] => []
  | _ :: x => splitOn '.' x

/-- Loop of `comparePrerelease` over the identifiers of both sides; it ends
when one side is used up and then returns `-1` if that side is `x`. -/
def compareIdents : List (List Char) → List (List Char) → Int
  | [], _ => -1
  | _ :: _, [] => 1
  | dx :: xs, dy :: ys =>
    if dx ≠ dy then compareIdent dx dy else compareIdents xs ys

/-- Function `comparePrerelease` of package semver. -/
def comparePrerelease (x y : List Char) : Int :=
  if x = y then 0
  else if x.isEmpty then 1
  else if y.isEmpty then -1
  else compareIdents (identifiers x) (identifiers y)

/-- Function `IsValid` of package semver. -/
def IsValid (v : String) : Bool :=
  (parse v.data).isSome

/-- Function `Compare` of package semver. -/
def Compare (v w : String) : Int :=
  match parse v.data, parse w.data with
  | none, none => 0
  | none, some _ => -1
  | some _, none => 1
  | some pv, some pw =>
    let c1 := compareInt pv.major pw.major
    if c1 ≠ 0 then c1
    else
      let c2 := compareInt pv.minor pw.minor
      if c2 ≠ 0 then c2
      else
        let c3 := compareInt pv.patch pw.patch
        if c3 ≠ 0 then c3
        else comparePrerelease pv.prerelease pw.prerelease

end semver

/-! ## Errors -/

/-- Error numbers carried by `*os.PathError`. -/
inductive Errno
  | ENOENT
  | ENOTDIR
  | EISDIR
deriving DecidableEq, Repr

/-- The error values that occur in the two packages. -/
inductive GoError
  /-- Variable `codehost.ErrDirtyWorkCopy`. -/
  | ErrDirtyWorkCopy
  /-- Variable `codehost.ErrRecognizeRepo`. -/
  | ErrRecognizeRepo
  /-- Type `*codehost.ErrNotRepo`. -/
  | ErrNotRepo (VCSType : String) (Path : String)
  /-- Variable `modproxyfolder.ErrEmptyVersion`. -/
  | ErrEmptyVersion
  /-- Type `*exec.ExitError`: the process ran and exited unsuccessfully. -/
  | ExitError (code : Int)
  /-- Any other error of package `os/exec` (lookup, start, pipe I/O). -/
  | ExecError (msg : String)
  /-- Type `*os.PathError`. -/
  | PathError (op : String) (path : String) (errno : Errno)
  /-- Variable `bufio.ErrTooLong`. -/
  | ErrTooLong
  /-- Type `*module.InvalidPathError`. -/
  | InvalidPathError (path : String)
  /-- Type `*module.InvalidVersionError`. -/
  | InvalidVersionError (version : String)
  /-- The internal error of `module.escapeString`. -/
  | EscapeError
  /-- An error of `json.Marshal`. -/
  | MarshalError (msg : String)
  /-- An error of `zip.OpenReader`. -/
  | ZipError (path : String)
deriving DecidableEq, Repr

deriving instance DecidableEq for Except

/-- Function `isErrNotRepo` of errors.go: the type assertion `err.(*ErrNotRepo)`. -/
def isErrNotRepo : GoError → Bool
  | .ErrNotRepo _ _ => true
  | _ => false

/-- Go `os.IsNotExist`. -/
def IsNotExist : GoError → Bool
  | .PathError _ _ .ENOENT => true
  | _ => false

/-! ## External processes -/

/-- The fields of `exec.Cmd` that `gitCmd` sets. -/
structure Cmd where
  Path : String
  Args : List String
  Env : List String
  Dir : String
deriving DecidableEq, Repr

/-- What happens when a command is run to completion. -/
inductive Outcome
  /-- The process could not be started or its pipes failed (not an `ExitError`). -/
  | failed (msg : String)
  /-- The process ran and exited with `code`, having written `stdout`. -/
  | exited (code : Int) (stdout : String)
deriving DecidableEq, Repr

/-- One entry of a zip archive. -/
structure ZipEntry where
  Name : String
  Content : String
deriving DecidableEq, Repr

/-- The machine the program runs on, as far as package codehost sees it. -/
structure Host where
  /-- Go `exec.LookPath`. -/
  lookPath : String → Except String String
  /-- Go `os.Environ`. -/
  environ : List String
  /-- The outcome of running a command. -/
  run : Cmd → Outcome
  /-- Go `ioutil.TempDir("", prefix)`. -/
  tempDir : String → Except GoError String
  /-- The entries `git archive --format=zip HEAD` exports. -/
  headArchive : List ZipEntry
  /-- The zip archives that exist as files, by path. -/
  zipFiles : String → Option (List ZipEntry)
  /-- Function `Create` of `golang.org/x/mod/zip` for a module path, a version
  and the files handed to it: the entries it writes, or its error. -/
  zipCreate : String → String → List ZipEntry → Except GoError (List ZipEntry)

/-- Go `(*exec.Cmd).Run`. -/
def Host.Run (h : Host) (cmd : Cmd) : Except GoError Unit :=
  match h.run cmd with
  | .failed msg => .error (.ExecError msg)
  | .exited code _ => if code = 0 then .ok () else .error (.ExitError code)

/-- Go `(*exec.Cmd).Output`. -/
def Host.Output (h : Host) (cmd : Cmd) : Except GoError String :=
  match h.run cmd with
  | .failed msg => .error (.ExecError msg)
  | .exited code out => if code = 0 then .ok out else .error (.ExitError code)

/-! ## codehost/git.go -/

/-- Constant `gitCommandName`. -/
def gitCommandName : String := "git"

/-- Function `prepareGitEnv`. -/
def prepareGitEnv (osEnv : List String) : List String :=
  osEnv.filter (fun envVal => !HasPrefix envVal "TZ=") ++ ["TZ=UTC"]

/-- Type `GitRepo`. -/
structure GitRepo where
  ModPath : String
  gitPath : String
  gitEnv : List String
deriving DecidableEq, Repr

/-- Method `GitRepo.gitCmd`: the command and the repo with its cached fields. -/
def GitRepo.gitCmd (h : Host) (repo : GitRepo) (arg : List String) :
    Except GoError Cmd × GitRepo :=
  let looked : Except String String :=
    if repo.gitPath = "" then h.lookPath gitCommandName else .ok repo.gitPath
  match looked with
  | .error msg => (.error (.ExecError msg), { repo with gitPath := "" })
  | .ok path =>
    let env := if repo.gitEnv.length = 0 then prepareGitEnv h.environ else repo.gitEnv
    let repo1 : GitRepo := { repo with gitPath := path, gitEnv := env }
    (.ok ⟨path, gitCommandName :: arg, env, repo.ModPath⟩, repo1)

/-- Method `GitRepo.checkClean`. -/
def GitRepo.checkClean (h : Host) (repo : GitRepo) : Except GoError Unit × GitRepo :=
  match repo.gitCmd h ["diff", "--no-ext-diff", "--quiet", "--exit-code"] with
  | (.error err, repo1) => (.error err, repo1)
  | (.ok cmd, repo1) =>
    match h.Run cmd with
    | .error (.ExitError code) =>
      if code = 1 then (.error .ErrDirtyWorkCopy, repo1)
      else if code = 129 ∨ code = 128 then (.error (.ErrNotRepo "git" repo.ModPath), repo1)
      else (.error (.ExitError code), repo1)
    | .error err => (.error err, repo1)
    | .ok () => (.ok (), repo1)

/-- Function `NewGitRepo`. -/
def NewGitRepo (h : Host) (modPath : String) : Except GoError GitRepo :=
  match GitRepo.checkClean h ⟨modPath, "", []⟩ with
  | (.error err, _) => .error err
  | (.ok (), repo) => .ok repo

/-- Function `NewRepo` of repo.go; `GitRepo` is the only implementation of `Repo`. -/
def NewRepo (h : Host) (modFolderPath : String) : Except GoError GitRepo :=
  match NewGitRepo h modFolderPath with
  | .ok repo => .ok repo
  | .error err => if !isErrNotRepo err then .error err else .error .ErrRecognizeRepo

/-- Type `tagRef`. -/
structure tagRef where
  Tag : String
  Hash : String
deriving DecidableEq, Repr

/-- The tag name of a ref name `refs/tags/...`: lines 115-116 of git.go. -/
def tagNameOf (refName : String) : String :=
  TrimSuffix (sliceFrom refName "refs/tags/".data.length) "^{}"

/-- Body of the first loop of `workingTag`, on `(headHash, tagRefs)`. -/
def scanLine (st : String × List tagRef) (line : String) : String × List tagRef :=
  match Fields line with
  | [refHash, refName] =>
    if refName = "HEAD" then (refHash, st.2)
    else if HasPrefix refName "refs/tags/v" then
      if !semver.IsValid (tagNameOf refName) then st
      else (st.1, st.2 ++ [⟨tagNameOf refName, refHash⟩])
    else st
  | _ => st

/-- First loop of `workingTag`: `headHash` and `tagRefs` after all lines. -/
def scanRefs (buf : String) : String × List tagRef :=
  (splitLines buf).foldl scanLine ("", [])

/-- Body of the second loop of `workingTag`, on `tag`. -/
def pickTag (headHash : String) (tag : String) (ref : tagRef) : String :=
  if ref.Hash ≠ headHash then tag
  else if tag = "" ∨ semver.Compare ref.Tag tag > 0 then ref.Tag
  else tag

/-- The part of `workingTag` after the command output was read. -/
def tagOfListing (buf : String) : String :=
  let st := scanRefs buf
  if st.1 = "" then "" else st.2.foldl (pickTag st.1) ""

/-- Method `GitRepo.workingTag`. -/
def GitRepo.workingTag (h : Host) (repo : GitRepo) : Except GoError String × GitRepo :=
  match repo.gitCmd h ["ls-remote", "--quiet", "./."] with
  | (.error err, repo1) => (.error err, repo1)
  | (.ok cmd, repo1) =>
    match h.Output cmd with
    | .error err => (.error err, repo1)
    | .ok buf => (.ok (tagOfListing buf), repo1)

/-- Method `GitRepo.PseudoVersion`. -/
def GitRepo.PseudoVersion (h : Host) (repo : GitRepo) : Except GoError String × GitRepo :=
  match repo.workingTag h with
  | (.error err, repo1) => (.error err, repo1)
  | (.ok tag, repo1) =>
    if tag ≠ "" then (.ok tag, repo1)
    else
      match repo1.gitCmd h ["show", "--no-patch", "--pretty=format:v0.0.0-%cd-%h",
          "--date=format-local:%Y%m%d%H%M%S", "--abbrev=12"] with
      | (.error err, repo2) => (.error err, repo2)
      | (.ok cmd, repo2) =>
        match h.Output cmd with
        | .error err => (.error err, repo2)
        | .ok buf => (.ok (TrimSpace buf), repo2)

/-! ## codehost/modzip.go -/

/-- Go `zip.OpenReader` followed by reading the entries. -/
def Host.OpenReader (h : Host) (zipfilepath : String) : Except GoError (List ZipEntry) :=
  match h.zipFiles zipfilepath with
  | none => .error (.ZipError zipfilepath)
  | some entries => .ok entries

/-- Function `convertToModuleZip`: the entries written to `w`. -/
def convertToModuleZip (h : Host) (zipfilepath : String) (modulePath moduleVersion : String) :
    Except GoError (List ZipEntry) :=
  match h.OpenReader zipfilepath with
  | .error err => .error err
  | .ok zr =>
    let files := zr.filter (fun zf => !(zf.Name = "" || HasSuffix zf.Name "/"))
    h.zipCreate modulePath moduleVersion files

/-- The host after `git archive --output tmpzipfile` has run successfully. -/
def Host.withArchive (h : Host) (tmpzipfile : String) : Host :=
  { h with zipFiles := fun p => if p = tmpzipfile then some h.headArchive else h.zipFiles p }

/-- Method `GitRepo.Zip`: the entries written to `w`. -/
def GitRepo.Zip (h : Host) (repo : GitRepo) (modulePath moduleVersion : String) :
    Except GoError (List ZipEntry) × GitRepo :=
  match h.tempDir "go-mod-pack-codehost-git" with
  | .error err => (.error err, repo)
  | .ok tmpdir =>
    let tmpzipfile := Join [tmpdir, "git-archive.zip"]
    match repo.gitCmd h ["archive", "--format=zip", "--output", tmpzipfile, "HEAD"] with
    | (.error err, repo1) => (.error err, repo1)
    | (.ok cmd, repo1) =>
      match h.Run cmd with
      | .error err => (.error err, repo1)
      | .ok () =>
        (convertToModuleZip (h.withArchive tmpzipfile) modulePath moduleVersion tmpzipfile, repo1)

/-! ## File system -/

/-- A node of the file system. -/
inductive Node
  | file (content : String)
  | dir
deriving DecidableEq, Repr

/-- The nodes of a disk by resolved path (the list of path elements from the
root). The root always exists and is a directory. -/
structure Disk where
  nodes : List (List String × Node)
deriving DecidableEq, Repr

/-- One step of path resolution: empty and `.` elements are skipped, `..` goes up. -/
def resolveStep (acc : List String) (e : String) : List String :=
  if e = "" ∨ e = "." then acc
  else if e = ".." then acc.dropLast
  else acc ++ [e]

/-- The elements a path string resolves to (relative paths start at the root). -/
def resolvePath (p : String) : List String :=
  (pathElems p).foldl resolveStep []

/-- The node stored for a resolved path in a node list. -/
def lookupNode (p : List String) : List (List String × Node) → Option Node
  | [] => none
  | (q, n) :: rest => if q = p then some n else lookupNode p rest

/-- Store a node for a resolved path in a node list. -/
def setNode (p : List String) (n : Node) : List (List String × Node) → List (List String × Node)
  | [] => [(p, n)]
  | (q, m) :: rest => if q = p then (p, n) :: rest else (q, m) :: setNode p n rest

/-- The node at a resolved path. -/
def Disk.node (d : Disk) (p : List String) : Option Node :=
  if p = [] then some .dir else lookupNode p d.nodes

/-- The disk with the node at a resolved path replaced. -/
def Disk.set (d : Disk) (p : List String) (n : Node) : Disk :=
  ⟨setNode p n d.nodes⟩

/-- Walk from the directory `cur` along `rest`: every element on the way must
be a directory. -/
def Disk.walk (d : Disk) (cur : List String) : List String → Except Errno Node
  | [] =>
    match d.node cur with
    | some n => .ok n
    | none => .error .ENOENT
  | e :: rest =>
    match d.node cur with
    | some .dir => Disk.walk d (cur ++ [e]) rest
    | some (.file _) => .error .ENOTDIR
    | none => .error .ENOENT

/-- Go `os.Stat`. -/
def Disk.Stat (d : Disk) (p : String) : Except GoError Node :=
  match d.walk [] (resolvePath p) with
  | .ok n => .ok n
  | .error errno => .error (.PathError "stat" p errno)

/-- Directory creation along `rest` below the directory `cur`. -/
def Disk.mkdirFrom (d : Disk) (cur : List String) : List String → Except Errno Disk
  | [] => .ok d
  | e :: rest =>
    match d.node (cur ++ [e]) with
    | some .dir => Disk.mkdirFrom d (cur ++ [e]) rest
    | some (.file _) => .error .ENOTDIR
    | none => Disk.mkdirFrom (d.set (cur ++ [e]) .dir) (cur ++ [e]) rest

/-- Go `os.MkdirAll`. -/
def Disk.MkdirAll (d : Disk) (p : String) : Except GoError Disk :=
  match d.mkdirFrom [] (resolvePath p) with
  | .ok d1 => .ok d1
  | .error errno => .error (.PathError "mkdir" p errno)

/-- Go `os.Create`: the disk with the file created or truncated. -/
def Disk.Create (d : Disk) (p : String) : Except GoError Disk :=
  let elems := resolvePath p
  if elems = [] then .error (.PathError "open" p .EISDIR)
  else
    match d.walk [] elems.dropLast with
    | .error errno => .error (.PathError "open" p errno)
    | .ok (.file _) => .error (.PathError "open" p .ENOTDIR)
    | .ok .dir =>
      match d.node elems with
      | some .dir => .error (.PathError "open" p .EISDIR)
      | _ => .ok (d.set elems (.file ""))

/-- Writes to the file created at `p`, to the end: the file holds `content`.
Write failures are not modelled. -/
def Disk.Write (d : Disk) (p : String) (content : String) : Disk :=
  d.set (resolvePath p) (.file content)

/-- Go `os.Open` followed by reading the file to its end. -/
def Disk.ReadFile (d : Disk) (p : String) : Except GoError String :=
  match d.walk [] (resolvePath p) with
  | .error errno => .error (.PathError "open" p errno)
  | .ok .dir => .error (.PathError "read" p .EISDIR)
  | .ok (.file content) => .ok content

/-! ## bufio.Scanner with the default line splitter -/

/-- Bytes of the UTF-8 encoding of a character. -/
def utf8Len (c : Char) : Nat :=
  if c.toNat < 0x80 then 1
  else if c.toNat < 0x800 then 2
  else if c.toNat < 0x10000 then 3
  else 4

/-- Length in bytes of a string. -/
def byteLen (l : List Char) : Nat :=
  (l.map utf8Len).sum

/-- Constant `bufio.MaxScanTokenSize`. -/
def MaxScanTokenSize : Nat := 64 * 1024

/-- The raw lines `bufio.ScanLines` cuts the input into: each line ends at a
newline, a last line without newline counts when it is not empty. -/
def scanTokens : List Char → List (List Char)
  | [] => []
  | c :: cs =>
    if c = '\n' then [] :: scanTokens cs
    else match scanTokens cs with
      | [] => [[c]]
      | l :: ls => (c :: l) :: ls

/-- Function `dropCR` of package bufio. -/
def dropCR (l : List Char) : List Char :=
  if l.getLast? = some '\r' then l.dropLast else l

/-! ## golang.org/x/mod/module -/

namespace module

set_option linter.dupNamespace false in
/-- Type `module.Version`. -/
structure Version where
  Path : String
  Version : String
deriving DecidableEq, Repr

/-- ASCII upper-case letter test `'A' <= r && r <= 'Z'`. -/
def isUpper (r : Char) : Bool :=
  'A'.toNat ≤ r.toNat && r.toNat ≤ 'Z'.toNat

/-- The lower-case form `r + 'a' - 'A'` of an upper-case letter. -/
def lower (r : Char) : Char :=
  Char.ofNat (r.toNat + 'a'.toNat - 'A'.toNat)

/-- Second loop of `escapeString`. -/
def escapeChars : List Char → List Char
  | [] => []
  | r :: rs => if isUpper r then '!' :: lower r :: escapeChars rs else r :: escapeChars rs

/-- Function `escapeString` of package module. -/
def escapeString (s : String) : Except GoError String :=
  if s.data.any (fun r => r == '!' || decide (r.toNat ≥ 0x80)) then .error .EscapeError
  else if !s.data.any isUpper then .ok s
  else .ok (String.mk (escapeChars s.data))

/-- Function `EscapePath` of package module; `checkPath` tells whether
`CheckPath` accepts the path. -/
def EscapePath (checkPath : String → Bool) (path : String) : Except GoError String :=
  if !checkPath path then .error (.InvalidPathError path)
  else escapeString path

/-- Function `EscapeVersion` of package module; `checkElem` tells whether
`checkElem(v, filePath)` accepts the version. -/
def EscapeVersion (checkElem : String → Bool) (v : String) : Except GoError String :=
  if !checkElem v || v.data.contains '!' then .error (.InvalidVersionError v)
  else escapeString v

/-- ASCII lower-case letter test `'a' <= r && r <= 'z'`. -/
def isLowerLetter (r : Char) : Bool :=
  'a'.toNat ≤ r.toNat && r.toNat ≤ 'z'.toNat

/-- Function `modPathOK` of package module. -/
def modPathOK (r : Char) : Bool :=
  r == '-' || r == '.' || r == '_' || r == '~' ||
  semver.isDigit r || isUpper r || isLowerLetter r

/-- Function `firstPathOK` of package module. -/
def firstPathOK (r : Char) : Bool :=
  r == '-' || r == '.' || semver.isDigit r || isLowerLetter r

/-- Function `fileNameOK` of package module. Outside ASCII the library asks
`unicode.IsLetter`; here every such character passes. -/
def fileNameOK (r : Char) : Bool :=
  if r.toNat < 0x80 then
    semver.isDigit r || isUpper r || isLowerLetter r ||
    "!#$%&()+,-.=@[]^_\x7b\x7d~ ".data.contains r
  else true

/-- Variable `badWindowsNames` of package module, in lower case. -/
def badWindowsNames : List String :=
  ["con", "com1", "com2", "com3", "com4", "com5", "com6", "com7", "com8", "com9",
   "lpt1", "lpt2", "lpt3", "lpt4", "lpt5", "lpt6", "lpt7", "lpt8", "lpt9", "nul", "prn", "aux"]

/-- ASCII lower-casing of one character. -/
def foldChar (r : Char) : Char :=
  if isUpper r then lower r else r

/-- The checks of `checkElem` on one path element: it is not empty, not made of
dots only, has no leading dot when it belongs to a module path, has no
trailing dot, holds only characters that `ok` allows, and its part before the
first dot is not a name reserved on Windows (compared as `strings.EqualFold`
does for these names). Later versions of the library refuse some more
elements of module paths (a tilde followed by digits). -/
def elemChecks (ok : Char → Bool) (inModulePath : Bool) (elem : List Char) : Bool :=
  !elem.isEmpty && !elem.all (fun c => c == '.') &&
  !(inModulePath && elem.head? == some '.') && !(elem.getLast? == some '.') &&
  elem.all ok &&
  !badWindowsNames.contains (String.mk ((elem.takeWhile (fun c => c != '.')).map foldChar))

/-- The checks of `CheckPath` on a module path: it is not empty, has no leading
dash, every element between slashes passes `elemChecks`, and the first element
holds a dot and only lower-case letters, digits, dots and dashes. The library
refuses some more paths (the rules of `SplitPathVersion` for a last element
`vN`). -/
def pathChecks (path : String) : Bool :=
  !path.data.isEmpty && !(path.data.head? == some '-') &&
  (splitOn '/' path.data).all (elemChecks modPathOK true) &&
  (match splitOn '/' path.data with
   | first :: _ => first.contains '.' && first.all firstPathOK
   | [] => false)

/-- The checks of `checkElem(v, filePath)` on a version. -/
def fileElemChecks (v : String) : Bool :=
  elemChecks fileNameOK false v.data

/-- The split `vi, fi = vi[:k], vi[k:]` at the first slash in the comparison of `Sort`. -/
def cutSlash (v : String) : String × String :=
  (String.mk (v.data.takeWhile (fun c => c != '/')), String.mk (v.data.dropWhile (fun c => c != '/')))

/-- The comparison function of `module.Sort`. -/
def less (mi mj : Version) : Bool :=
  if mi.Path ≠ mj.Path then ltChars mi.Path.data mj.Path.data
  else
    let ci := cutSlash mi.Version
    let cj := cutSlash mj.Version
    if ci.1 ≠ cj.1 then decide (semver.Compare ci.1 cj.1 < 0)
    else ltChars ci.2.data cj.2.data

/-- Inner loop of the insertion sort of package sort: `x` moves towards the
front past every element it is less than; the sorted part is given back to front. -/
def insertBack (x : Version) : List Version → List Version
  | [] => [x]
  | y :: ys => if less x y then y :: insertBack x ys else x :: y :: ys

/-- Function `insertionSortLessFunc` of package sort with `less`. -/
def insertionSort (list : List Version) : List Version :=
  (list.foldl (fun sorted x => insertBack x sorted) []).reverse

/-- Function `module.Sort` (`Sort` is reserved in Lean): `sort.Slice` with
`less`. Package sort (Go 1.19 and later) runs the insertion sort on a slice of
at most 12 entries; a longer slice it partitions first, and the order it
leaves is the parameter `sortLong`. -/
def SortList (sortLong : List Version → List Version) (list : List Version) : List Version :=
  if list.length ≤ 12 then insertionSort list else sortLong list

end module

/-! ## modproxyfolder/folder.go -/

/-- Constant `moduleVersFolderName`. -/
def moduleVersFolderName : String := "@v"

/-- Constant `moduleListFileName`. -/
def moduleListFileName : String := "list"

/-- Constant `moduleInfoFileSuffix`. -/
def moduleInfoFileSuffix : String := "info"

/-- Constant `moduleModFileSuffix`. -/
def moduleModFileSuffix : String := "mod"

/-- Constant `moduleZipFileSuffix`. -/
def moduleZipFileSuffix : String := "zip"

/-- Type `Info` of modinfo.go; the time is kept as seconds since the epoch and
the name of its location. -/
structure Info where
  Version : String
  TimeSec : Int
  TimeLoc : String
deriving DecidableEq, Repr

/-- What the folder code takes from outside the repository. -/
structure Toolchain where
  /-- The `GOPATH` that `go env` reports (`rungo.CommandGo.Env`). -/
  goPath : Except String String
  /-- Whether `module.CheckPath` accepts a module path. -/
  checkPath : String → Bool
  /-- Whether `module.checkElem(v, filePath)` accepts a version. -/
  checkElem : String → Bool
  /-- Go `json.Marshal` of an `Info`. -/
  marshal : Info → Except String String
  /-- The order in which `sort.Slice` with `module.less` leaves a slice of more
  than 12 entries. -/
  sortLong : List module.Version → List module.Version

/-- Type `ModuleProxyFolder`. -/
structure ModuleProxyFolder where
  FolderPath : String
  ModulePath : String
  hasVersFolder : Bool
deriving DecidableEq, Repr

/-- Function `DefaultModuleProxyBaseFolder`. -/
def DefaultModuleProxyBaseFolder (t : Toolchain) : Except GoError String :=
  match t.goPath with
  | .error msg => .error (.ExecError msg)
  | .ok goPath => .ok (Join [goPath, "pkg/mod/cache/download"])

/-- Function `NewModuleProxyFolder`. -/
def NewModuleProxyFolder (t : Toolchain) (baseFolder modulePath : String) :
    Except GoError ModuleProxyFolder :=
  let base : Except GoError String :=
    if baseFolder = "" then DefaultModuleProxyBaseFolder t else .ok baseFolder
  match base with
  | .error err => .error err
  | .ok baseFolder1 =>
    match module.EscapePath t.checkPath modulePath with
    | .error err => .error err
    | .ok escapedModPath => .ok ⟨Join [baseFolder1, escapedModPath], modulePath, false⟩

/-- Method `prepareVersFolder`. -/
def ModuleProxyFolder.prepareVersFolder (f : ModuleProxyFolder) (d : Disk) :
    Except GoError Unit × ModuleProxyFolder × Disk :=
  if f.hasVersFolder then (.ok (), f, d)
  else
    let p := Join [f.FolderPath, moduleVersFolderName]
    match d.Stat p with
    | .ok _ => (.ok (), { f with hasVersFolder := true }, d)
    | .error err =>
      if IsNotExist err then
        match d.MkdirAll p with
        | .error err1 => (.error err1, f, d)
        | .ok d1 => (.ok (), { f with hasVersFolder := true }, d1)
      else (.error err, f, d)

/-- Loop of `LoadVersionList` over the lines of the scanner; the scanner stops
with `ErrTooLong` at a line that does not fit its buffer. -/
def loadLoop (modulePath : String) : List (List Char) → Except GoError (List module.Version)
  | [] => .ok []
  | raw :: rest =>
    if byteLen raw ≥ MaxScanTokenSize then .error .ErrTooLong
    else
      let v := TrimSpace (String.mk (dropCR raw))
      match loadLoop modulePath rest with
      | .error err => .error err
      | .ok vers => if v = "" then .ok vers else .ok (⟨modulePath, v⟩ :: vers)

/-- The path of the list file. -/
def ModuleProxyFolder.listFilePath (f : ModuleProxyFolder) : String :=
  Join [f.FolderPath, moduleVersFolderName, moduleListFileName]

/-- Method `LoadVersionList`. -/
def ModuleProxyFolder.LoadVersionList (f : ModuleProxyFolder) (d : Disk) :
    Except GoError (List module.Version) :=
  match d.ReadFile f.listFilePath with
  | .error err => .error err
  | .ok content => loadLoop f.ModulePath (scanTokens content.data)

/-- The text the loop of `SaveVersionList` writes. -/
def renderList : List module.Version → List Char
  | [] => []
  | v :: vers => v.Version.data ++ '\n' :: renderList vers

/-- Method `SaveVersionList`. -/
def ModuleProxyFolder.SaveVersionList (t : Toolchain) (f : ModuleProxyFolder) (d : Disk)
    (vers : List module.Version) : Except GoError Unit × ModuleProxyFolder × Disk :=
  let sorted := module.SortList t.sortLong vers
  match f.prepareVersFolder d with
  | (.error err, f1, d1) => (.error err, f1, d1)
  | (.ok (), f1, d1) =>
    match d1.Create f.listFilePath with
    | .error err => (.error err, f1, d1)
    | .ok d2 => (.ok (), f1, d2.Write f.listFilePath (String.mk (renderList sorted)))

/-- Method `AddVersionToList`. -/
def ModuleProxyFolder.AddVersionToList (t : Toolchain) (f : ModuleProxyFolder) (d : Disk)
    (ver : String) : Except GoError Unit × ModuleProxyFolder × Disk :=
  match f.LoadVersionList d with
  | .error err => (.error err, f, d)
  | .ok vers =>
    if vers.any (fun v => v.Version = ver) then (.ok (), f, d)
    else f.SaveVersionList t d (vers ++ [⟨f.ModulePath, ver⟩])

/-- Second loop of `ImportVersionsToList`; `m` holds the keys of the map, which
the loop only reads. -/
def importLoop (modulePath : String) (m : List String) (vers : List module.Version) :
    List String → List module.Version
  | [] => vers
  | vText :: rest =>
    if m.contains vText then importLoop modulePath m vers rest
    else importLoop modulePath m (vers ++ [⟨modulePath, vText⟩]) rest

/-- Method `ImportVersionsToList`. -/
def ModuleProxyFolder.ImportVersionsToList (t : Toolchain) (f : ModuleProxyFolder) (d : Disk)
    (versions : List String) : Except GoError Unit × ModuleProxyFolder × Disk :=
  match f.LoadVersionList d with
  | .error err => (.error err, f, d)
  | .ok vers =>
    let m := vers.map (fun v => v.Version)
    f.SaveVersionList t d (importLoop f.ModulePath m vers versions)

/-- Method `ContainVersion`. -/
def ModuleProxyFolder.ContainVersion (f : ModuleProxyFolder) (d : Disk) (ver : String) :
    Except GoError Bool :=
  match f.LoadVersionList d with
  | .error err => .error err
  | .ok vers => .ok (vers.any (fun v => v.Version = ver))

/-- The path of the file of a version: line 190 of folder.go. -/
def ModuleProxyFolder.versionedFilePath (f : ModuleProxyFolder) (escapedVer suffix : String) :
    String :=
  Join [f.FolderPath, moduleVersFolderName, escapedVer ++ "." ++ suffix]

/-- Method `createVersionedFile`: the path of the opened file. -/
def ModuleProxyFolder.createVersionedFile (t : Toolchain) (f : ModuleProxyFolder) (d : Disk)
    (ver suffix : String) : Except GoError String × ModuleProxyFolder × Disk :=
  match module.EscapeVersion t.checkElem ver with
  | .error err => (.error err, f, d)
  | .ok escapedVer =>
    match f.prepareVersFolder d with
    | (.error err, f1, d1) => (.error err, f1, d1)
    | (.ok (), f1, d1) =>
      let p := f.versionedFilePath escapedVer suffix
      match d1.Create p with
      | .error err => (.error err, f1, d1)
      | .ok d2 => (.ok p, f1, d2)

/-- Method `SaveInfo`. -/
def ModuleProxyFolder.SaveInfo (t : Toolchain) (f : ModuleProxyFolder) (d : Disk) (info : Info) :
    Except GoError Unit × ModuleProxyFolder × Disk :=
  if info.Version = "" then (.error .ErrEmptyVersion, f, d)
  else
    let info1 : Info := { info with TimeLoc := "UTC" }
    match t.marshal info1 with
    | .error msg => (.error (.MarshalError msg), f, d)
    | .ok buf =>
      match f.createVersionedFile t d info1.Version moduleInfoFileSuffix with
      | (.error err, f1, d1) => (.error err, f1, d1)
      | (.ok fp, f1, d1) => (.ok (), f1, d1.Write fp buf)

/-- Method `CreateGoMod`. -/
def ModuleProxyFolder.CreateGoMod (t : Toolchain) (f : ModuleProxyFolder) (d : Disk)
    (ver : String) : Except GoError String × ModuleProxyFolder × Disk :=
  if ver = "" then (.error .ErrEmptyVersion, f, d)
  else f.createVersionedFile t d ver moduleModFileSuffix

/-- Method `CreateZip`. -/
def ModuleProxyFolder.CreateZip (t : Toolchain) (f : ModuleProxyFolder) (d : Disk)
    (ver : String) : Except GoError String × ModuleProxyFolder × Disk :=
  if ver = "" then (.error .ErrEmptyVersion, f, d)
  else f.createVersionedFile t d ver moduleZipFileSuffix

/-! ## Concrete stores -/

/-- A toolchain whose validators make the checks `module.pathChecks` and
`module.fileElemChecks` and whose sort is the insertion sort at every length. -/
def libToolchain : Toolchain where
  goPath := .ok "/root/go"
  checkPath := module.pathChecks
  checkElem := module.fileElemChecks
  marshal := fun info => .ok ("\x7b\"Version\":\"" ++ info.Version ++ "\"\x7d")
  sortLong := module.insertionSort

/-- The folder of module `example.com/foo` below `/cache`. -/
def fooFolder : ModuleProxyFolder := ⟨"/cache/example.com/foo", "example.com/foo", false⟩

/-- A fresh store: nothing exists on the disk. -/
def freshDisk : Disk := ⟨[]⟩

/-- A store whose list file exists and holds `content`. -/
def listDisk (content : String) : Disk :=
  ⟨[(["cache"], .dir), (["cache", "example.com"], .dir), (["cache", "example.com", "foo"], .dir),
    (["cache", "example.com", "foo", "@v"], .dir),
    (["cache", "example.com", "foo", "@v", "list"], .file content)]⟩

/-- A store whose version folder exists but holds no list file. -/
def emptyFolderDisk : Disk :=
  ⟨[(["cache"], .dir), (["cache", "example.com"], .dir), (["cache", "example.com", "foo"], .dir),
    (["cache", "example.com", "foo", "@v"], .dir)]⟩

/-- Calls of `AddVersionToList` one after the other, whatever each returns. -/
def addAll (t : Toolchain) (f : ModuleProxyFolder) (d : Disk) :
    List String → ModuleProxyFolder × Disk
  | [] => (f, d)
  | ver :: rest =>
    let r := f.AddVersionToList t d ver
    addAll t r.2.1 r.2.2 rest

/-! ## Concrete hosts -/

/-- The given files, each under the prefix `<path>@<version>/`. -/
def underPrefix (path version : String) (files : List ZipEntry) : List ZipEntry :=
  files.map (fun f => ⟨path ++ "@" ++ version ++ "/" ++ f.Name, f.Content⟩)

/-- A host with git installed: `ls-remote` prints `listing`, `show` prints
`shown`, every other git command succeeds silently, HEAD exports `archive`,
and the zip writer accepts every file it is handed. -/
def scriptedHost (listing shown : String) (archive : List ZipEntry) : Host where
  lookPath := fun _ => .ok "/usr/bin/git"
  environ := ["TZ=Asia/Taipei", "HOME=/root"]
  run := fun cmd =>
    match cmd.Args with
    | "git" :: "ls-remote" :: _ => .exited 0 listing
    | "git" :: "show" :: _ => .exited 0 shown
    | "git" :: _ => .exited 0 ""
    | _ => .failed "executable file not found"
  tempDir := fun pre => .ok ("/tmp/" ++ pre ++ "123456")
  headArchive := archive
  zipFiles := fun _ => none
  zipCreate := fun path version files => .ok (underPrefix path version files)

/-- A repo value as `NewGitRepo` first builds it. -/
def freshRepo : GitRepo := ⟨"/src/m", "", []⟩

/-- Listing where two tags of HEAD compare equal. -/
def tieListing : String :=
  "c0ffee\tHEAD\nc0ffee\trefs/heads/master\nc0ffee\trefs/tags/v1.0.0\nc0ffee\trefs/tags/v1.0\n"

/-- Listing where HEAD carries two tags, one annotated, and another commit a higher tag. -/
def taggedListing : String :=
  "c0ffee\tHEAD\nc0ffee\trefs/heads/master\nbeef\trefs/tags/v1.0.0\nc0ffee\trefs/tags/v1.0.0^{}\nc0ffee\trefs/tags/v1.1.0\nf00d\trefs/tags/v2.0.0\n"

/-- Listing that names tags and branches but not HEAD. -/
def headlessListing : String :=
  "c0ffee\trefs/heads/master\nc0ffee\trefs/tags/v1.0.0\n"

/-- An exported archive with a directory entry. -/
def sampleArchive : List ZipEntry :=
  [⟨"go.mod", "module example.com/m\n"⟩, ⟨"pkg/", ""⟩, ⟨"pkg/a.go", "package pkg\n"⟩]

/-! ## Predicates of the statements -/

namespace semver

/-- The characters a valid semantic version is made of: letters, digits,
hyphen, dot and plus. -/
def versionChar (c : Char) : Bool :=
  isIdentChar c || c == '.' || c == '+'

/-- A prerelease field as `parse` produces it: absent, or starting with the hyphen. -/
def PrereleaseForm (x : List Char) : Prop :=
  x = [] ∨ ∃ u, x = '-' :: u

end semver

namespace module

/-- The escaping rule in words: each upper-case letter becomes `!` and its
lower-case form, every other character stays. -/
def escapeRule (c : Char) : List Char :=
  if isUpper c then ['!', lower c] else [c]

end module

/-- The escaped form of an identifier, by the rule in words. -/
def module.escaped (s : String) : String :=
  String.mk (s.data.flatMap module.escapeRule)

/-- The validators of the toolchain accept no more than the library does in
any version: no module path with an empty element or an element `.` or `..`,
no version that is empty or holds a slash. -/
def Toolchain.Sound (t : Toolchain) : Prop :=
  (∀ p, t.checkPath p = true →
    ∀ e ∈ splitOn '/' p.data, e ≠ [] ∧ e ≠ ['.'] ∧ e ≠ ['.', '.']) ∧
  (∀ v, t.checkElem v = true → v ≠ "" ∧ '/' ∉ v.data)

/-- A path element that names a file or directory: not empty, not `.` or `..`,
without a slash. -/
def RealElem (e : String) : Prop :=
  e ≠ "" ∧ e ≠ "." ∧ e ≠ ".." ∧ '/' ∉ e.data

/-- The hash a line gives to `HEAD`, if it names `HEAD`. -/
def lineHead (line : String) : Option String :=
  match Fields line with
  | [refHash, refName] => if refName = "HEAD" then some refHash else none
  | _ => none

/-- The tag refs a line adds to `tagRefs`. -/
def lineTags (line : String) : List tagRef :=
  match Fields line with
  | [refHash, refName] =>
    if refName ≠ "HEAD" ∧ HasPrefix refName "refs/tags/v" = true
        ∧ semver.IsValid (tagNameOf refName) = true
    then [⟨tagNameOf refName, refHash⟩] else []
  | _ => []

/-- Ref name `refName` is a tag ref whose tag name (dereference suffix stripped)
is the valid semantic version `T`. -/
def IsTagRef (refName T : String) : Prop :=
  HasPrefix refName "refs/tags/v" = true ∧ tagNameOf refName = T ∧ semver.IsValid T = true

/-- Some line of the listing gives the valid tag `T` the hash `C`. -/
def HasTag (buf T C : String) : Prop :=
  ∃ line ∈ splitLines buf, ∃ refName, Fields line = [C, refName] ∧ IsTagRef refName T

/-- The listing names `HEAD`, and every line that names it gives the hash `C`. -/
def HeadIs (buf C : String) : Prop :=
  (∃ line ∈ splitLines buf, Fields line = [C, "HEAD"]) ∧
  ∀ line ∈ splitLines buf, ∀ refHash, Fields line = [refHash, "HEAD"] → refHash = C

/-- No line of the listing names `HEAD`. -/
def NoHead (buf : String) : Prop :=
  ∀ line ∈ splitLines buf, ∀ refHash, Fields line ≠ [refHash, "HEAD"]

/-- The `git diff` command that `checkClean` runs for a new repo at `modPath`. -/
def cleanCheckCmd (h : Host) (path modPath : String) : Cmd :=
  ⟨path, ["git", "diff", "--no-ext-diff", "--quiet", "--exit-code"],
    prepareGitEnv h.environ, modPath⟩

/-- A version string that a line of the list file gives back unchanged: not
empty, no white space at either end, no newline inside. -/
def PlainVersion (v : String) : Prop :=
  v ≠ "" ∧ TrimSpace v = v ∧ '\n' ∉ v.data

/-! ## Properties of the semver model -/

theorem char_eq_of_toNat_eq {a b : Char} (h : a.toNat = b.toNat) : a = b := by
  rw [← Char.ofNat_toNat a, ← Char.ofNat_toNat b, h]

theorem ltChars_irrefl (x : List Char) : ltChars x x = false := by
  induction x with
  | nil => rfl
  | cons a as ih => simp [ltChars, ih]

theorem ltChars_flip : ∀ (x y : List Char), x ≠ y → ltChars x y = !ltChars y x := by
  intro x
  induction x with
  | nil =>
    intro y hxy
    cases y with
    | nil => exact absurd rfl hxy
    | cons b bs => simp [ltChars]
  | cons a as ih =>
    intro y hxy
    cases y with
    | nil => simp [ltChars]
    | cons b bs =>
      simp only [ltChars]
      rcases Nat.lt_trichotomy a.toNat b.toNat with hlt | heq | hgt
      · have h2 : ¬ b.toNat < a.toNat := by omega
        simp [hlt, h2]
      · have hab : a = b := char_eq_of_toNat_eq heq
        subst hab
        have hne : as ≠ bs := fun h => hxy (by rw [h])
        simp [ih bs hne]
      · have h2 : ¬ a.toNat < b.toNat := by omega
        simp [hgt, h2]

namespace semver

theorem compareInt_antisymm (x y : List Char) : compareInt x y = - compareInt y x := by
  unfold compareInt
  by_cases hxy : x = y
  · subst hxy; simp
  · have hyx : ¬ y = x := fun h => hxy h.symm
    simp only [hxy, hyx, if_false]
    rcases Nat.lt_trichotomy x.length y.length with hlt | heq | hgt
    · have h2 : ¬ y.length < x.length := by omega
      have h3 : x.length < y.length := hlt
      have h4 : y.length > x.length := hlt
      simp [h2, h3, h4]
    · have h1 : ¬ x.length < y.length := by omega
      have h2 : ¬ y.length < x.length := by omega
      have h3 : ¬ x.length > y.length := by omega
      have h4 : ¬ y.length > x.length := by omega
      simp only [h1, h2, h3, h4, if_false]
      rw [ltChars_flip x y hxy]
      cases ltChars y x <;> simp
    · have h1 : ¬ x.length < y.length := by omega
      have h3 : x.length > y.length := hgt
      have h4 : y.length < x.length := hgt
      simp [h1, h3, h4]

theorem compareIdent_antisymm (dx dy : List Char) (hne : dx ≠ dy) :
    compareIdent dx dy = - compareIdent dy dx := by
  unfold compareIdent
  have hflip := ltChars_flip dx dy hne
  cases hx : isNum dx <;> cases hy : isNum dy
  · simp [hflip]
    cases ltChars dy dx <;> simp
  · simp
  · simp
  · simp only [bne_self_eq_false, Bool.false_eq_true, if_false, Bool.true_and, decide_eq_true_eq]
    rcases Nat.lt_trichotomy dx.length dy.length with hlt | heq | hgt
    · have h2 : ¬ dy.length < dx.length := by omega
      have h3 : dy.length > dx.length := hlt
      have h4 : ¬ dx.length > dy.length := by omega
      simp [hlt, h2, h3, h4]
    · have h1 : ¬ dx.length < dy.length := by omega
      have h2 : ¬ dy.length < dx.length := by omega
      have h3 : ¬ dx.length > dy.length := by omega
      have h4 : ¬ dy.length > dx.length := by omega
      simp only [h1, h2, h3, h4, if_false]
      rw [hflip]
      cases ltChars dy dx <;> simp
    · have h1 : ¬ dx.length < dy.length := by omega
      have h3 : dx.length > dy.length := hgt
      have h4 : dy.length < dx.length := hgt
      simp [h1, h3, h4]

theorem compareIdents_antisymm : ∀ (xs ys : List (List Char)), xs ≠ ys →
    compareIdents xs ys = - compareIdents ys xs := by
  intro xs
  induction xs with
  | nil =>
    intro ys hne
    cases ys with
    | nil => exact absurd rfl hne
    | cons dy ys => simp [compareIdents]
  | cons dx xs ih =>
    intro ys hne
    cases ys with
    | nil => simp [compareIdents]
    | cons dy ys =>
      simp only [compareIdents]
      by_cases hd : dx = dy
      · subst hd
        have hne2 : xs ≠ ys := fun h => hne (by rw [h])
        simp [ih ys hne2]
      · have hd2 : ¬ dy = dx := fun h => hd h.symm
        simp only [ne_eq, hd, hd2, not_false_eq_true, if_true]
        exact compareIdent_antisymm dx dy hd

end semver

theorem splitOn_ne_nil (sep : Char) (l : List Char) : splitOn sep l ≠ [] := by
  cases l with
  | nil => simp [splitOn]
  | cons c cs =>
    simp only [splitOn]
    by_cases hc : c = sep
    · simp [hc]
    · simp only [hc, if_false]
      cases splitOn sep cs <;> simp

theorem joinWith_splitOn (sep : Char) : ∀ l : List Char, joinWith sep (splitOn sep l) = l := by
  intro l
  induction l with
  | nil => rfl
  | cons c cs ih =>
    simp only [splitOn]
    have hne := splitOn_ne_nil sep cs
    by_cases hc : c = sep
    · simp only [hc, if_true]
      cases hs : splitOn sep cs with
      | nil => exact absurd hs hne
      | cons l ls => rw [hs] at ih; simp [joinWith, ih]
    · simp only [hc, if_false]
      cases hs : splitOn sep cs with
      | nil => exact absurd hs hne
      | cons l ls =>
        rw [hs] at ih
        cases ls with
        | nil => simp [joinWith] at ih ⊢; exact ih
        | cons l2 ls2 => simp [joinWith] at ih ⊢; exact ih

theorem splitOn_injective (sep : Char) (a b : List Char) (h : splitOn sep a = splitOn sep b) :
    a = b := by
  rw [← joinWith_splitOn sep a, ← joinWith_splitOn sep b, h]

namespace semver

theorem prereleaseLoop_prefix : ∀ (v cur acc t r : List Char),
    prereleaseLoop v cur acc = some (t, r) → ∃ u, t = acc.reverse ++ u := by
  intro v
  induction v with
  | nil =>
    intro cur acc t r h
    simp only [prereleaseLoop] at h
    split at h
    · exact absurd h (by simp)
    · simp only [Option.some.injEq, Prod.mk.injEq] at h
      exact ⟨[], by simp [h.1]⟩
  | cons c cs ih =>
    intro cur acc t r h
    simp only [prereleaseLoop] at h
    split at h
    · split at h
      · exact absurd h (by simp)
      · simp only [Option.some.injEq, Prod.mk.injEq] at h
        exact ⟨[], by simp [h.1]⟩
    · split at h
      · exact absurd h (by simp)
      · split at h
        · split at h
          · exact absurd h (by simp)
          · obtain ⟨u, hu⟩ := ih [] (c :: acc) t r h
            exact ⟨c :: u, by simp [hu]⟩
        · obtain ⟨u, hu⟩ := ih (c :: cur) (c :: acc) t r h
          exact ⟨c :: u, by simp [hu]⟩

theorem parsePrerelease_form (v t r : List Char) (h : parsePrerelease v = some (t, r)) :
    PrereleaseForm t := by
  cases v with
  | nil => simp [parsePrerelease] at h
  | cons c cs =>
    simp only [parsePrerelease] at h
    split at h
    · exact absurd h (by simp)
    · rename_i hc
      have hc2 : c = '-' := by simpa using hc
      obtain ⟨u, hu⟩ := prereleaseLoop_prefix cs [] [c] t r h
      exact Or.inr ⟨u, by simp [hu, hc2]⟩

theorem parseTail_form (major minor patch v : List Char) (p : parsed)
    (h : parseTail major minor patch v = some p) : PrereleaseForm p.prerelease := by
  unfold parseTail at h
  simp only at h
  split at h
  · exact absurd h (by simp)
  · rename_i prerelease v1 hpre
    have hform : PrereleaseForm prerelease := by
      split at hpre
      · exact parsePrerelease_form _ _ _ hpre
      · simp only [Option.some.injEq, Prod.mk.injEq] at hpre
        exact Or.inl hpre.1.symm
    split at h
    · exact absurd h (by simp)
    · split at h
      · simp only [Option.some.injEq] at h
        rw [← h]
        exact hform
      · exact absurd h (by simp)

theorem parse_form (v : List Char) (p : parsed) (h : parse v = some p) :
    PrereleaseForm p.prerelease := by
  unfold parse at h
  split at h
  · split at h
    · exact absurd h (by simp)
    · simp only [Option.some.injEq] at h
      rw [← h]; exact Or.inl rfl
    · split at h
      · exact absurd h (by simp)
      · simp only [Option.some.injEq] at h
        rw [← h]; exact Or.inl rfl
      · split at h
        · exact absurd h (by simp)
        · exact parseTail_form _ _ _ _ p h
      · exact absurd h (by simp)
    · exact absurd h (by simp)
  · exact absurd h (by simp)

theorem comparePrerelease_antisymm (x y : List Char)
    (hx : PrereleaseForm x) (hy : PrereleaseForm y) :
    comparePrerelease x y = - comparePrerelease y x := by
  unfold comparePrerelease
  by_cases hxy : x = y
  · subst hxy; simp
  · have hyx : ¬ y = x := fun h => hxy h.symm
    simp only [hxy, hyx, if_false]
    rcases hx with hx | ⟨u, hu⟩
    · subst hx
      cases y with
      | nil => exact absurd rfl hxy
      | cons b bs => simp
    · rcases hy with hy | ⟨w, hw⟩
      · subst hy; subst hu; simp
      · subst hu; subst hw
        have huw : u ≠ w := fun h => hxy (by rw [h])
        have hne : identifiers ('-' :: u) ≠ identifiers ('-' :: w) := by
          intro h
          exact huw (splitOn_injective '.' u w h)
        simp only [List.isEmpty_cons, Bool.false_eq_true, if_false]
        exact compareIdents_antisymm _ _ hne

theorem Compare_antisymm (v w : String) : Compare v w = - Compare w v := by
  unfold Compare
  cases hv : parse v.data with
  | none => cases hw : parse w.data <;> simp
  | some pv =>
    cases hw : parse w.data with
    | none => simp
    | some pw =>
      simp only
      have h1 := compareInt_antisymm pv.major pw.major
      have h2 := compareInt_antisymm pv.minor pw.minor
      have h3 := compareInt_antisymm pv.patch pw.patch
      have h4 := comparePrerelease_antisymm pv.prerelease pw.prerelease
        (parse_form _ _ hv) (parse_form _ _ hw)
      by_cases c1 : compareInt pw.major pv.major = 0
      · have c1' : compareInt pv.major pw.major = 0 := by rw [h1, c1]; rfl
        by_cases c2 : compareInt pw.minor pv.minor = 0
        · have c2' : compareInt pv.minor pw.minor = 0 := by rw [h2, c2]; rfl
          by_cases c3 : compareInt pw.patch pv.patch = 0
          · have c3' : compareInt pv.patch pw.patch = 0 := by rw [h3, c3]; rfl
            simp [c1, c1', c2, c2', c3, c3', h4]
          · have c3' : compareInt pv.patch pw.patch ≠ 0 := by rw [h3]; omega
            simp [c1, c1', c2, c2', c3, c3', h3]
        · have c2' : compareInt pv.minor pw.minor ≠ 0 := by rw [h2]; omega
          simp [c1, c1', c2, c2', h2]
      · have c1' : compareInt pv.major pw.major ≠ 0 := by rw [h1]; omega
        simp [c1, c1', h1]

theorem Compare_self (v : String) : Compare v v = 0 := by
  have h := Compare_antisymm v v
  omega

theorem IsValid_ne_empty (v : String) (h : IsValid v = true) : v ≠ "" := by
  intro hv
  subst hv
  simp [IsValid, parse] at h

theorem Compare_invalid_valid (v w : String) (hv : IsValid v = false) (hw : IsValid w = true) :
    Compare v w = -1 := by
  unfold IsValid at hv hw
  unfold Compare
  cases h1 : parse v.data with
  | some p => rw [h1] at hv; simp at hv
  | none =>
    cases h2 : parse w.data with
    | none => rw [h2] at hw; simp at hw
    | some q => rfl

end semver

/-! ## Properties of the ref listing scan -/

theorem scanLine_eq (st : String × List tagRef) (line : String) :
    scanLine st line = ((lineHead line).getD st.1, st.2 ++ lineTags line) := by
  unfold scanLine lineHead lineTags
  split
  · rename_i refHash refName hf
    by_cases h1 : refName = "HEAD"
    · simp [h1]
    · by_cases h2 : HasPrefix refName "refs/tags/v" = true
      · by_cases h3 : semver.IsValid (tagNameOf refName) = true
        · simp [h1, h2, h3]
        · simp [h1, h2, h3]
      · simp [h1, h2]
  · simp

theorem foldl_scanLine_snd_mem (r : tagRef) : ∀ (lines : List String) (st : String × List tagRef),
    r ∈ (lines.foldl scanLine st).2 ↔ r ∈ st.2 ∨ ∃ line ∈ lines, r ∈ lineTags line := by
  intro lines
  induction lines with
  | nil => intro st; simp
  | cons l ls ih =>
    intro st
    rw [List.foldl_cons, ih, scanLine_eq]
    simp only [List.mem_append, List.mem_cons, exists_eq_or_imp]
    tauto

theorem foldl_scanLine_fst_none : ∀ (lines : List String) (st : String × List tagRef),
    (∀ line ∈ lines, lineHead line = none) → (lines.foldl scanLine st).1 = st.1 := by
  intro lines
  induction lines with
  | nil => intro st _; rfl
  | cons l ls ih =>
    intro st hno
    rw [List.foldl_cons, ih _ (fun line hl => hno line (List.mem_cons_of_mem _ hl)), scanLine_eq,
      hno l (List.mem_cons_self _ _)]
    rfl

theorem foldl_scanLine_fst (C : String) : ∀ (lines : List String) (st : String × List tagRef),
    (∀ line ∈ lines, ∀ refHash, lineHead line = some refHash → refHash = C) →
    (st.1 = C ∨ ∃ line ∈ lines, lineHead line = some C) →
    (lines.foldl scanLine st).1 = C := by
  intro lines
  induction lines with
  | nil =>
    intro st _ hex
    rcases hex with h | ⟨line, hl, _⟩
    · exact h
    · exact absurd hl (List.not_mem_nil _)
  | cons l ls ih =>
    intro st hall hex
    rw [List.foldl_cons]
    apply ih
    · intro line hl refHash hh
      exact hall line (List.mem_cons_of_mem _ hl) refHash hh
    · rw [scanLine_eq]
      cases hl : lineHead l with
      | some refHash =>
        left
        simp only [Option.getD_some]
        exact hall l (List.mem_cons_self _ _) refHash hl
      | none =>
        simp only [Option.getD_none]
        rcases hex with h | ⟨line, hmem, hline⟩
        · exact Or.inl h
        · rcases List.mem_cons.mp hmem with heq | hmem2
          · rw [heq, hl] at hline
            exact absurd hline (by simp)
          · exact Or.inr ⟨line, hmem2, hline⟩

theorem lineHead_eq_some (line refHash : String) :
    lineHead line = some refHash ↔ Fields line = [refHash, "HEAD"] := by
  unfold lineHead
  split
  · rename_i h n hf
    rw [hf]
    by_cases hn : n = "HEAD"
    · simp [hn]
    · simp only [hn, if_false]
      constructor
      · intro h0; exact absurd h0 (by simp)
      · intro h0
        simp only [List.cons.injEq, and_true] at h0
        exact absurd h0.2 hn
  · rename_i hno
    constructor
    · intro h0; exact absurd h0 (by simp)
    · intro h0; exact absurd h0 (hno refHash "HEAD")

theorem tagRef_not_head (refName : String) (h : HasPrefix refName "refs/tags/v" = true) :
    refName ≠ "HEAD" := by
  intro hn
  subst hn
  revert h
  decide

theorem mem_lineTags (line : String) (r : tagRef) :
    r ∈ lineTags line ↔ ∃ refName, Fields line = [r.Hash, refName] ∧ IsTagRef refName r.Tag := by
  unfold lineTags IsTagRef
  split
  · rename_i refHash refName hf
    rw [hf]
    constructor
    · intro hr
      split at hr
      · rename_i hc
        simp only [List.mem_singleton] at hr
        subst hr
        exact ⟨refName, rfl, hc.2.1, rfl, hc.2.2⟩
      · exact absurd hr (List.not_mem_nil _)
    · rintro ⟨n, hn, hpre, hname, hval⟩
      simp only [List.cons.injEq, and_true] at hn
      obtain ⟨h1, h2⟩ := hn
      subst h2
      have hc : refName ≠ "HEAD" ∧ HasPrefix refName "refs/tags/v" = true
          ∧ semver.IsValid (tagNameOf refName) = true :=
        ⟨tagRef_not_head _ hpre, hpre, by rw [hname]; exact hval⟩
      rw [if_pos hc]
      simp only [List.mem_singleton]
      cases r
      simp only at h1 hname
      simp [h1, hname]
  · rename_i hno
    constructor
    · intro hr; exact absurd hr (List.not_mem_nil _)
    · rintro ⟨n, hn, _⟩
      exact absurd hn (hno r.Hash n)

theorem mem_scanRefs (buf T C : String) :
    (⟨T, C⟩ : tagRef) ∈ (scanRefs buf).2 ↔ HasTag buf T C := by
  unfold scanRefs HasTag
  rw [foldl_scanLine_snd_mem]
  simp only [List.not_mem_nil, false_or]
  constructor
  · rintro ⟨line, hl, hr⟩
    exact ⟨line, hl, (mem_lineTags line ⟨T, C⟩).mp hr⟩
  · rintro ⟨line, hl, hr⟩
    exact ⟨line, hl, (mem_lineTags line ⟨T, C⟩).mpr hr⟩

theorem fieldsLoop_ne_nil : ∀ (cs cur : List Char), ∀ f ∈ fieldsLoop cs cur, f ≠ [] := by
  intro cs
  induction cs with
  | nil =>
    intro cur f hf
    simp only [fieldsLoop] at hf
    split at hf
    · exact absurd hf (List.not_mem_nil _)
    · rename_i hc
      simp only [List.mem_singleton] at hf
      subst hf
      intro h0
      apply hc
      simpa using h0
  | cons c cs ih =>
    intro cur f hf
    simp only [fieldsLoop] at hf
    split at hf
    · split at hf
      · exact ih [] f hf
      · rename_i hc
        rcases List.mem_cons.mp hf with h1 | h2
        · subst h1
          intro h0
          apply hc
          simpa using h0
        · exact ih [] f h2
    · exact ih (c :: cur) f hf

theorem Fields_ne_empty (line f : String) (hf : f ∈ Fields line) : f ≠ "" := by
  unfold Fields at hf
  rw [List.mem_map] at hf
  obtain ⟨l, hl, hlf⟩ := hf
  have := fieldsLoop_ne_nil _ _ l hl
  intro h0
  rw [h0] at hlf
  apply this
  have h2 := congrArg String.data hlf
  simpa using h2

theorem scanRefs_head (buf C : String) (h : HeadIs buf C) : (scanRefs buf).1 = C := by
  unfold scanRefs
  apply foldl_scanLine_fst
  · intro line hl refHash hh
    exact h.2 line hl refHash ((lineHead_eq_some _ _).mp hh)
  · obtain ⟨line, hl, hf⟩ := h.1
    exact Or.inr ⟨line, hl, (lineHead_eq_some _ _).mpr hf⟩

theorem scanRefs_noHead (buf : String) (h : NoHead buf) : (scanRefs buf).1 = "" := by
  unfold scanRefs
  apply foldl_scanLine_fst_none
  intro line hl
  cases hh : lineHead line with
  | none => rfl
  | some refHash => exact absurd ((lineHead_eq_some _ _).mp hh) (h line hl refHash)

theorem HeadIs_ne_empty (buf C : String) (h : HeadIs buf C) : C ≠ "" := by
  obtain ⟨line, _, hf⟩ := h.1
  apply Fields_ne_empty line C
  rw [hf]
  exact List.mem_cons_self _ _

/-- The second loop of `workingTag` ends with `T` when `T` is among the refs at
`C` still to come (or is the current tag) and every other tag at `C` is below it. -/
theorem foldl_pickTag (C T : String) (hT : T ≠ "") :
    ∀ (refs : List tagRef) (tag : String),
    (∀ r ∈ refs, r.Hash = C → r.Tag = T ∨ semver.Compare r.Tag T < 0) →
    (tag = T ∨ (semver.Compare tag T < 0 ∧ (⟨T, C⟩ : tagRef) ∈ refs)) →
    refs.foldl (pickTag C) tag = T := by
  intro refs
  induction refs with
  | nil =>
    intro tag _ hinv
    rcases hinv with h | ⟨_, hmem⟩
    · exact h
    · exact absurd hmem (List.not_mem_nil _)
  | cons r rs ih =>
    intro tag hall hinv
    rw [List.foldl_cons]
    apply ih
    · intro r2 hr2
      exact hall r2 (List.mem_cons_of_mem _ hr2)
    · unfold pickTag
      by_cases hh : r.Hash = C
      · simp only [ne_eq, hh, not_true_eq_false, if_false]
        rcases hinv with h | ⟨hlt, hmem⟩
        · subst h
          left
          have hr := hall r (List.mem_cons_self _ _) hh
          have hnot : ¬ (tag = "" ∨ semver.Compare r.Tag tag > 0) := by
            rintro (h0 | h0)
            · exact hT h0
            · rcases hr with h1 | h1
              · rw [h1, semver.Compare_self] at h0; omega
              · omega
          rw [if_neg hnot]
        · rcases hall r (List.mem_cons_self _ _) hh with h1 | h1
          · left
            have hyes : tag = "" ∨ semver.Compare r.Tag tag > 0 := by
              right
              rw [h1, semver.Compare_antisymm]
              omega
            rw [if_pos hyes, h1]
          · right
            have hmem2 : (⟨T, C⟩ : tagRef) ∈ rs := by
              rcases List.mem_cons.mp hmem with h2 | h2
              · rw [← h2, semver.Compare_self] at h1
                omega
              · exact h2
            constructor
            · split
              · exact h1
              · exact hlt
            · exact hmem2
      · simp only [ne_eq, hh, not_false_eq_true, if_true]
        rcases hinv with h | ⟨hlt, hmem⟩
        · exact Or.inl h
        · right
          refine ⟨hlt, ?_⟩
          rcases List.mem_cons.mp hmem with h2 | h2
          · rw [← h2] at hh
            exact absurd rfl hh
          · exact h2

theorem tagOfListing_greatest (buf C T : String) (hhead : HeadIs buf C) (htag : HasTag buf T C)
    (hmax : ∀ U, HasTag buf U C → U ≠ T → semver.Compare U T < 0) :
    tagOfListing buf = T := by
  have hvalid : semver.IsValid T = true := by
    obtain ⟨_, _, _, _, h⟩ := htag
    exact h.2.2
  have hT : T ≠ "" := semver.IsValid_ne_empty T hvalid
  unfold tagOfListing
  simp only
  rw [scanRefs_head buf C hhead, if_neg (HeadIs_ne_empty buf C hhead)]
  apply foldl_pickTag C T hT
  · intro r hr hh
    by_cases hrt : r.Tag = T
    · exact Or.inl hrt
    · right
      apply hmax r.Tag _ hrt
      rw [← mem_scanRefs]
      cases r
      simp only at hh
      rw [← hh]
      exact hr
  · right
    refine ⟨?_, (mem_scanRefs buf T C).mpr htag⟩
    rw [semver.Compare_invalid_valid "" T (by decide) hvalid]
    decide

theorem HeadIs_of_lines (buf C : String)
    (h1 : ∃ line ∈ splitLines buf, lineHead line = some C)
    (h2 : ∀ line ∈ splitLines buf, lineHead line = none ∨ lineHead line = some C) :
    HeadIs buf C := by
  constructor
  · obtain ⟨line, hl, hh⟩ := h1
    exact ⟨line, hl, (lineHead_eq_some _ _).mp hh⟩
  · intro line hl refHash hf
    have hh := (lineHead_eq_some _ _).mpr hf
    rcases h2 line hl with h | h
    · rw [h] at hh; exact absurd hh (by simp)
    · rw [h] at hh; simpa using hh.symm

theorem NoHead_of_lines (buf : String)
    (h : ∀ line ∈ splitLines buf, lineHead line = none) : NoHead buf := by
  intro line hl refHash hf
  have hh := (lineHead_eq_some _ _).mpr hf
  rw [h line hl] at hh
  exact absurd hh (by simp)

/-! ## Theorems on package codehost -/

/-- C1 (as amended): when HEAD resolves to hash `C`, a valid semver tag `T` has
hash `C` and every other valid tag with hash `C` compares strictly below `T`,
then `workingTag` and `PseudoVersion` return exactly `T` with no error,
whatever the order of the ref lines. -/
theorem PseudoVersion_greatest_tag (h : Host) (repo repo1 : GitRepo) (cmd : Cmd)
    (buf C T : String)
    (hcmd : repo.gitCmd h ["ls-remote", "--quiet", "./."] = (.ok cmd, repo1))
    (hout : h.Output cmd = .ok buf)
    (hhead : HeadIs buf C) (htag : HasTag buf T C)
    (hmax : ∀ U, HasTag buf U C → U ≠ T → semver.Compare U T < 0) :
    repo.workingTag h = (.ok T, repo1) ∧ repo.PseudoVersion h = (.ok T, repo1) := by
  have hT : T ≠ "" := by
    obtain ⟨_, _, _, _, hv⟩ := htag
    exact semver.IsValid_ne_empty T hv.2.2
  have hw : repo.workingTag h = (.ok T, repo1) := by
    unfold GitRepo.workingTag
    rw [hcmd]
    simp only [hout]
    rw [tagOfListing_greatest buf C T hhead htag hmax]
  refine ⟨hw, ?_⟩
  unfold GitRepo.PseudoVersion
  rw [hw]
  simp only [ne_eq, hT, not_false_eq_true, if_true]

/-- The statement of C1 (as amended) at `taggedListing`: HEAD carries `v1.0.0`
(annotated) and `v1.1.0`, another commit carries `v2.0.0`; the result is `v1.1.0`. -/
theorem PseudoVersion_greatest_tag_witness :
    HeadIs taggedListing "c0ffee" ∧ HasTag taggedListing "v1.1.0" "c0ffee" ∧
    (GitRepo.PseudoVersion (scriptedHost taggedListing "" []) freshRepo).1 = .ok "v1.1.0" := by
  have hhead : HeadIs taggedListing "c0ffee" := HeadIs_of_lines _ _ (by decide) (by decide)
  have htag : HasTag taggedListing "v1.1.0" "c0ffee" := (mem_scanRefs _ _ _).mp (by decide)
  have hmax : ∀ U, HasTag taggedListing U "c0ffee" → U ≠ "v1.1.0" →
      semver.Compare U "v1.1.0" < 0 := by
    intro U hU hne
    have hmem := (mem_scanRefs _ _ _).mpr hU
    have hrefs : (scanRefs taggedListing).2 =
        [⟨"v1.0.0", "beef"⟩, ⟨"v1.0.0", "c0ffee"⟩, ⟨"v1.1.0", "c0ffee"⟩, ⟨"v2.0.0", "f00d"⟩] := by
      decide
    rw [hrefs] at hmem
    simp only [List.mem_cons, tagRef.mk.injEq, List.mem_singleton, List.not_mem_nil,
      or_false] at hmem
    rcases hmem with ⟨_, h2⟩ | ⟨h1, _⟩ | ⟨h1, _⟩ | ⟨_, h2⟩
    · exact absurd h2 (by decide)
    · subst h1; decide
    · exact absurd h1 hne
    · exact absurd h2 (by decide)
  have hmain := PseudoVersion_greatest_tag (scriptedHost taggedListing "" []) freshRepo
    _ _ taggedListing "c0ffee" "v1.1.0" rfl rfl hhead htag hmax
  exact ⟨hhead, htag, by rw [hmain.2]⟩

/-- C1 (as stated) fails: in `tieListing` HEAD resolves to `c0ffee`, `v1.0` is a
valid tag with that hash and no other valid tag with that hash is greater than
`v1.0`, yet `PseudoVersion` returns `v1.0.0`, the tag listed first. -/
theorem PseudoVersion_tie_counterexample :
    HeadIs tieListing "c0ffee" ∧ HasTag tieListing "v1.0" "c0ffee" ∧
    (∀ U, HasTag tieListing U "c0ffee" → U ≠ "v1.0" → ¬ semver.Compare U "v1.0" > 0) ∧
    (GitRepo.PseudoVersion (scriptedHost tieListing "" []) freshRepo).1 = .ok "v1.0.0" ∧
    (GitRepo.PseudoVersion (scriptedHost tieListing "" []) freshRepo).1 ≠ .ok "v1.0" := by
  refine ⟨HeadIs_of_lines _ _ (by decide) (by decide), (mem_scanRefs _ _ _).mp (by decide),
    ?_, by decide, by decide⟩
  intro U hU _
  have hmem := (mem_scanRefs _ _ _).mpr hU
  have hrefs : (scanRefs tieListing).2 = [⟨"v1.0.0", "c0ffee"⟩, ⟨"v1.0", "c0ffee"⟩] := by
    decide
  rw [hrefs] at hmem
  simp only [List.mem_cons, tagRef.mk.injEq, List.mem_singleton, List.not_mem_nil,
    or_false, and_true] at hmem
  rcases hmem with h1 | h1
  · subst h1; decide
  · subst h1; decide

/-- C2 (code at the failing input): `Zip` hands `convertToModuleZip` its
arguments in the order `(modulePath, moduleVersion, tmpzipfile)` while the
parameters are `(zipfilepath, modulePath, moduleVersion)`; so it opens the file
named by the module path instead of the exported archive and fails, while the
same conversion with the arguments in parameter order yields the prefixed
regular files. -/
theorem Zip_swapped_arguments :
    (GitRepo.Zip (scriptedHost "" "" sampleArchive) freshRepo "example.com/m" "v1.0.0").1
      = .error (.ZipError "example.com/m") ∧
    convertToModuleZip
      ((scriptedHost "" "" sampleArchive).withArchive
        "/tmp/go-mod-pack-codehost-git123456/git-archive.zip")
      "/tmp/go-mod-pack-codehost-git123456/git-archive.zip" "example.com/m" "v1.0.0"
      = .ok [⟨"example.com/m@v1.0.0/go.mod", "module example.com/m\n"⟩,
             ⟨"example.com/m@v1.0.0/pkg/a.go", "package pkg\n"⟩] := by
  constructor
  · decide
  · decide

/-- C7 (as amended): when no line of the listing names HEAD, `workingTag`
succeeds with the empty tag, and `PseudoVersion` goes on to pseudo-version
synthesis: its result is the trimmed output of the `git show` command and it
fails exactly when that command fails. -/
theorem PseudoVersion_without_head (h : Host) (repo repo1 : GitRepo) (cmd : Cmd) (buf : String)
    (hcmd : repo.gitCmd h ["ls-remote", "--quiet", "./."] = (.ok cmd, repo1))
    (hout : h.Output cmd = .ok buf)
    (hno : NoHead buf) :
    repo.workingTag h = (.ok "", repo1) ∧
    repo.PseudoVersion h =
      match repo1.gitCmd h ["show", "--no-patch", "--pretty=format:v0.0.0-%cd-%h",
          "--date=format-local:%Y%m%d%H%M%S", "--abbrev=12"] with
      | (.error err, repo2) => (.error err, repo2)
      | (.ok showCmd, repo2) =>
        match h.Output showCmd with
        | .error err => (.error err, repo2)
        | .ok shown => (.ok (TrimSpace shown), repo2) := by
  have hw : repo.workingTag h = (.ok "", repo1) := by
    unfold GitRepo.workingTag
    rw [hcmd]
    simp only [hout]
    unfold tagOfListing
    simp only [scanRefs_noHead buf hno, if_true]
  refine ⟨hw, ?_⟩
  unfold GitRepo.PseudoVersion
  rw [hw]
  simp only [ne_eq, not_true_eq_false, if_false]

/-- The statement of C7 (as amended) at `headlessListing`. -/
theorem PseudoVersion_without_head_witness :
    NoHead headlessListing ∧
    (GitRepo.workingTag (scriptedHost headlessListing "v0.0.0-20240501100000-abcdef123456\n" [])
      freshRepo).1 = .ok "" := by
  have hno : NoHead headlessListing := NoHead_of_lines _ (by decide)
  have hmain := PseudoVersion_without_head
    (scriptedHost headlessListing "v0.0.0-20240501100000-abcdef123456\n" []) freshRepo
    _ _ headlessListing rfl rfl hno
  exact ⟨hno, by rw [hmain.1]⟩

/-- C7 (as stated) fails: the listing `headlessListing` names no HEAD, yet
`workingTag` reports success with no version and `PseudoVersion` falls through
to synthesis and returns the pseudo-version printed by `git show`. -/
theorem PseudoVersion_headless_counterexample :
    NoHead headlessListing ∧
    (GitRepo.workingTag (scriptedHost headlessListing "v0.0.0-20240501100000-abcdef123456\n" [])
      freshRepo).1 = .ok "" ∧
    (GitRepo.PseudoVersion
      (scriptedHost headlessListing "v0.0.0-20240501100000-abcdef123456\n" [])
      freshRepo).1 = .ok "v0.0.0-20240501100000-abcdef123456" := by
  exact ⟨NoHead_of_lines _ (by decide), by decide, by decide⟩

/-- C8: repository construction maps the outcome of the clean check to its
result exactly. Exit status 1 gives `ErrDirtyWorkCopy` from both constructors;
128 or 129 gives `ErrNotRepo` from `NewGitRepo` and `ErrRecognizeRepo` from
`NewRepo`; every other failure (lookup failure, start failure, other exit
status) is returned unchanged; only exit status 0 yields a repository. -/
theorem NewRepo_error_mapping (h : Host) (modPath : String) :
    (NewGitRepo h modPath =
      match h.lookPath "git" with
      | .error msg => .error (.ExecError msg)
      | .ok path =>
        match h.run (cleanCheckCmd h path modPath) with
        | .failed msg => .error (.ExecError msg)
        | .exited code _ =>
          if code = 0 then .ok ⟨modPath, path, prepareGitEnv h.environ⟩
          else if code = 1 then .error .ErrDirtyWorkCopy
          else if code = 128 ∨ code = 129 then .error (.ErrNotRepo "git" modPath)
          else .error (.ExitError code)) ∧
    (NewRepo h modPath =
      match h.lookPath "git" with
      | .error msg => .error (.ExecError msg)
      | .ok path =>
        match h.run (cleanCheckCmd h path modPath) with
        | .failed msg => .error (.ExecError msg)
        | .exited code _ =>
          if code = 0 then .ok ⟨modPath, path, prepareGitEnv h.environ⟩
          else if code = 1 then .error .ErrDirtyWorkCopy
          else if code = 128 ∨ code = 129 then .error .ErrRecognizeRepo
          else .error (.ExitError code)) := by
  have hg : NewGitRepo h modPath =
      match h.lookPath "git" with
      | .error msg => .error (.ExecError msg)
      | .ok path =>
        match h.run (cleanCheckCmd h path modPath) with
        | .failed msg => .error (.ExecError msg)
        | .exited code _ =>
          if code = 0 then .ok ⟨modPath, path, prepareGitEnv h.environ⟩
          else if code = 1 then .error .ErrDirtyWorkCopy
          else if code = 128 ∨ code = 129 then .error (.ErrNotRepo "git" modPath)
          else .error (.ExitError code) := by
    unfold NewGitRepo GitRepo.checkClean GitRepo.gitCmd Host.Run cleanCheckCmd gitCommandName
    cases hl : h.lookPath "git" with
    | error msg => simp
    | ok path =>
      simp only [if_true, List.length_nil]
      cases hr : h.run ⟨path, ["git", "diff", "--no-ext-diff", "--quiet", "--exit-code"],
          prepareGitEnv h.environ, modPath⟩ with
      | failed msg => simp
      | exited code out =>
        simp only
        by_cases h0 : code = 0
        · simp [h0]
        · by_cases h1 : code = 1
          · simp [h1]
          · by_cases h2 : code = 129 ∨ code = 128
            · have h3 : code = 128 ∨ code = 129 := h2.symm
              simp [h0, h1, h2, h3]
            · have h3 : ¬ (code = 128 ∨ code = 129) := fun h => h2 h.symm
              simp [h0, h1, h2, h3]
  refine ⟨hg, ?_⟩
  unfold NewRepo
  rw [hg]
  cases hl : h.lookPath "git" with
  | error msg => simp [isErrNotRepo]
  | ok path =>
    simp only
    cases hr : h.run (cleanCheckCmd h path modPath) with
    | failed msg => simp [isErrNotRepo]
    | exited code out =>
      simp only
      by_cases h0 : code = 0
      · simp [h0]
      · by_cases h1 : code = 1
        · simp [h1, isErrNotRepo]
        · by_cases h3 : code = 128 ∨ code = 129
          · simp [h0, h1, h3, isErrNotRepo]
          · simp [h0, h1, h3, isErrNotRepo]

/-! ## Theorems on package modproxyfolder -/

/-- C3 (code at the failing input): when the list file does not exist, on a
fresh disk or in an existing version folder, `LoadVersionList` returns the
not-exist error of `os.Open` instead of the empty sequence, and
`ContainVersion` returns that error too. -/
theorem LoadVersionList_missing_file :
    fooFolder.LoadVersionList freshDisk
      = .error (.PathError "open" "/cache/example.com/foo/@v/list" .ENOENT) ∧
    fooFolder.LoadVersionList emptyFolderDisk
      = .error (.PathError "open" "/cache/example.com/foo/@v/list" .ENOENT) ∧
    IsNotExist (.PathError "open" "/cache/example.com/foo/@v/list" .ENOENT) = true ∧
    fooFolder.ContainVersion freshDisk "v0.0.0-20240501100000-abcdef123456"
      = .error (.PathError "open" "/cache/example.com/foo/@v/list" .ENOENT) ∧
    fooFolder.ContainVersion emptyFolderDisk "v0.0.0-20240501100000-abcdef123456"
      = .error (.PathError "open" "/cache/example.com/foo/@v/list" .ENOENT) := by
  refine ⟨by decide, by decide, by decide, by decide, by decide⟩

/-- C5 (code at the failing input): on a fresh store each of the three calls
`v1.0.0`, `v0.9.0`, `v1.0.0` of `AddVersionToList` fails with the not-exist
error and the store stays as it was, with no list file; only when the list
file already exists do the same calls yield the list `v0.9.0`, `v1.0.0`. -/
theorem AddVersionToList_fresh_store :
    (fooFolder.AddVersionToList libToolchain freshDisk "v1.0.0").1
      = .error (.PathError "open" "/cache/example.com/foo/@v/list" .ENOENT) ∧
    addAll libToolchain fooFolder freshDisk ["v1.0.0", "v0.9.0", "v1.0.0"] = (fooFolder, freshDisk) ∧
    fooFolder.LoadVersionList
        (addAll libToolchain fooFolder freshDisk ["v1.0.0", "v0.9.0", "v1.0.0"]).2
      = .error (.PathError "open" "/cache/example.com/foo/@v/list" .ENOENT) ∧
    (addAll libToolchain fooFolder (listDisk "") ["v1.0.0", "v0.9.0", "v1.0.0"]).2
      = listDisk "v0.9.0\nv1.0.0\n" := by
  refine ⟨by decide, by decide, by decide, by decide⟩

/-- C6 (code at the failing input): `ImportVersionsToList` with the input
`v1.0.0`, `v1.0.0` on a store listing only `v0.1.0` writes `v1.0.0` twice,
because the second loop never adds a new version to the map it consults. -/
theorem ImportVersionsToList_duplicates :
    fooFolder.LoadVersionList (listDisk "v0.1.0\n") = .ok [⟨"example.com/foo", "v0.1.0"⟩] ∧
    (fooFolder.ImportVersionsToList libToolchain (listDisk "v0.1.0\n") ["v1.0.0", "v1.0.0"]).1 = .ok () ∧
    (fooFolder.ImportVersionsToList libToolchain (listDisk "v0.1.0\n") ["v1.0.0", "v1.0.0"]).2.2
      = listDisk "v0.1.0\nv1.0.0\nv1.0.0\n" := by
  refine ⟨by decide, by decide, by decide⟩

theorem escapeString_ne_emptyVersion (s : String) :
    module.escapeString s ≠ .error .ErrEmptyVersion := by
  unfold module.escapeString
  split
  · simp
  · split <;> simp

theorem EscapeVersion_ne_emptyVersion (chk : String → Bool) (v : String) :
    module.EscapeVersion chk v ≠ .error .ErrEmptyVersion := by
  unfold module.EscapeVersion
  split
  · simp
  · exact escapeString_ne_emptyVersion v

theorem Stat_error_path (d : Disk) (p : String) (err : GoError) (h : d.Stat p = .error err) :
    ∃ errno, err = .PathError "stat" p errno := by
  unfold Disk.Stat at h
  split at h
  · exact absurd h (by simp)
  · rename_i errno _
    simp only [Except.error.injEq] at h
    exact ⟨errno, h.symm⟩

theorem MkdirAll_error_path (d : Disk) (p : String) (err : GoError)
    (h : d.MkdirAll p = .error err) : ∃ errno, err = .PathError "mkdir" p errno := by
  unfold Disk.MkdirAll at h
  split at h
  · exact absurd h (by simp)
  · rename_i errno _
    simp only [Except.error.injEq] at h
    exact ⟨errno, h.symm⟩

theorem Create_error_path (d : Disk) (p : String) (err : GoError)
    (h : d.Create p = .error err) : ∃ errno, err = .PathError "open" p errno := by
  unfold Disk.Create at h
  simp only at h
  split at h
  · simp only [Except.error.injEq] at h
    exact ⟨_, h.symm⟩
  · split at h
    · simp only [Except.error.injEq] at h
      exact ⟨_, h.symm⟩
    · simp only [Except.error.injEq] at h
      exact ⟨_, h.symm⟩
    · split at h
      · simp only [Except.error.injEq] at h
        exact ⟨_, h.symm⟩
      · exact absurd h (by simp)

theorem prepareVersFolder_ne_emptyVersion (f : ModuleProxyFolder) (d : Disk) :
    (f.prepareVersFolder d).1 ≠ .error .ErrEmptyVersion := by
  unfold ModuleProxyFolder.prepareVersFolder
  split
  · simp
  · simp only
    split
    · simp
    · rename_i err hs
      obtain ⟨errno, he⟩ := Stat_error_path _ _ _ hs
      split
      · split
        · rename_i err1 hm
          obtain ⟨errno1, he1⟩ := MkdirAll_error_path _ _ _ hm
          simp [he1]
        · simp
      · simp [he]

theorem createVersionedFile_ne_emptyVersion (t : Toolchain) (f : ModuleProxyFolder) (d : Disk)
    (ver suffix : String) :
    (f.createVersionedFile t d ver suffix).1 ≠ .error .ErrEmptyVersion := by
  unfold ModuleProxyFolder.createVersionedFile
  split
  · rename_i err he
    intro h
    simp only [Except.error.injEq] at h
    rw [h] at he
    exact EscapeVersion_ne_emptyVersion _ _ he
  · split
    · rename_i err f1 d1 hp
      intro h
      simp only [Except.error.injEq] at h
      have := prepareVersFolder_ne_emptyVersion f d
      rw [hp, h] at this
      exact this rfl
    · simp only
      split
      · rename_i err hc
        obtain ⟨errno, he⟩ := Create_error_path _ _ _ hc
        simp [he]
      · simp

/-- On a fresh disk `SaveInfo` creates the version folder and writes the info
file, and `CreateZip` names the file by the escaped version. -/
theorem versioned_files_sample :
    (fooFolder.SaveInfo libToolchain freshDisk ⟨"v1.0.0", 1714557600, "Local"⟩).1 = .ok () ∧
    (fooFolder.SaveInfo libToolchain freshDisk ⟨"v1.0.0", 1714557600, "Local"⟩).2.1
      = ⟨"/cache/example.com/foo", "example.com/foo", true⟩ ∧
    (fooFolder.SaveInfo libToolchain freshDisk ⟨"v1.0.0", 1714557600, "Local"⟩).2.2.ReadFile
        "/cache/example.com/foo/@v/v1.0.0.info" = .ok "\x7b\"Version\":\"v1.0.0\"\x7d" ∧
    (fooFolder.CreateZip libToolchain freshDisk "v1.0.0-RC1").1
      = .ok "/cache/example.com/foo/@v/v1.0.0-!r!c1.zip" ∧
    (fooFolder.CreateZip libToolchain freshDisk "").1 = .error .ErrEmptyVersion := by
  refine ⟨by decide, by decide, by decide, by decide, by decide⟩

/-- C9: `SaveInfo`, `CreateGoMod` and `CreateZip` fail with `ErrEmptyVersion`
if and only if the given version is the empty string, and in that case the
folder value (with its cached flag) and the disk are returned unchanged. -/
theorem versioned_files_empty_version (t : Toolchain) (f : ModuleProxyFolder) (d : Disk)
    (info : Info) (ver : String) :
    ((f.SaveInfo t d info).1 = .error .ErrEmptyVersion ↔ info.Version = "") ∧
    (info.Version = "" → (f.SaveInfo t d info).2 = (f, d)) ∧
    ((f.CreateGoMod t d ver).1 = .error .ErrEmptyVersion ↔ ver = "") ∧
    (ver = "" → (f.CreateGoMod t d ver).2 = (f, d)) ∧
    ((f.CreateZip t d ver).1 = .error .ErrEmptyVersion ↔ ver = "") ∧
    (ver = "" → (f.CreateZip t d ver).2 = (f, d)) := by
  refine ⟨⟨?_, ?_⟩, ?_, ⟨?_, ?_⟩, ?_, ⟨?_, ?_⟩, ?_⟩
  · intro h
    by_contra hne
    unfold ModuleProxyFolder.SaveInfo at h
    rw [if_neg hne] at h
    simp only at h
    split at h
    · simp at h
    · split at h
      · rename_i err f1 d1 hc
        simp only [Except.error.injEq] at h
        have := createVersionedFile_ne_emptyVersion t f d info.Version moduleInfoFileSuffix
        rw [hc, h] at this
        exact this rfl
      · simp at h
  · intro h
    unfold ModuleProxyFolder.SaveInfo
    rw [if_pos h]
  · intro h
    unfold ModuleProxyFolder.SaveInfo
    rw [if_pos h]
  · intro h
    by_contra hne
    unfold ModuleProxyFolder.CreateGoMod at h
    rw [if_neg hne] at h
    exact createVersionedFile_ne_emptyVersion t f d ver moduleModFileSuffix h
  · intro h
    unfold ModuleProxyFolder.CreateGoMod
    rw [if_pos h]
  · intro h
    unfold ModuleProxyFolder.CreateGoMod
    rw [if_pos h]
  · intro h
    by_contra hne
    unfold ModuleProxyFolder.CreateZip at h
    rw [if_neg hne] at h
    exact createVersionedFile_ne_emptyVersion t f d ver moduleZipFileSuffix h
  · intro h
    unfold ModuleProxyFolder.CreateZip
    rw [if_pos h]
  · intro h
    unfold ModuleProxyFolder.CreateZip
    rw [if_pos h]

/-! ## Escaping -/

namespace module

theorem isUpper_iff (r : Char) : isUpper r = true ↔ 65 ≤ r.toNat ∧ r.toNat ≤ 90 := by
  unfold isUpper
  have hA : 'A'.toNat = 65 := rfl
  have hZ : 'Z'.toNat = 90 := rfl
  rw [hA, hZ]
  simp

theorem toNat_lower (r : Char) (h : isUpper r = true) : (lower r).toNat = r.toNat + 32 := by
  rw [isUpper_iff] at h
  have key : ∀ n, 65 ≤ n → n ≤ 90 → (Char.ofNat (n + 97 - 65)).toNat = n + 32 := by
    intro n h1 h2
    interval_cases n <;> rfl
  exact key r.toNat h.1 h.2

theorem isUpper_lower (r : Char) (h : isUpper r = true) : isUpper (lower r) = false := by
  have h1 := toNat_lower r h
  rw [isUpper_iff] at h
  cases hu : isUpper (lower r) with
  | false => rfl
  | true =>
    rw [isUpper_iff] at hu
    omega

theorem lower_injective (r q : Char) (hr : isUpper r = true) (hq : isUpper q = true)
    (h : lower r = lower q) : r = q := by
  apply char_eq_of_toNat_eq
  have h1 := toNat_lower r hr
  have h2 := toNat_lower q hq
  rw [h] at h1
  omega

theorem escapeChars_eq_flatMap (l : List Char) : escapeChars l = l.flatMap escapeRule := by
  induction l with
  | nil => rfl
  | cons c cs ih =>
    simp only [escapeChars, List.flatMap_cons, escapeRule]
    cases isUpper c <;> simp [ih]

theorem escapeChars_no_upper (l : List Char) : ∀ c ∈ escapeChars l, isUpper c = false := by
  induction l with
  | nil => intro c hc; exact absurd hc (List.not_mem_nil _)
  | cons r rs ih =>
    intro c hc
    simp only [escapeChars] at hc
    cases hu : isUpper r with
    | true =>
      simp only [hu, if_true, List.mem_cons] at hc
      rcases hc with h | h | h
      · subst h; decide
      · subst h; exact isUpper_lower r hu
      · exact ih c h
    | false =>
      simp only [hu, Bool.false_eq_true, if_false, List.mem_cons] at hc
      rcases hc with h | h
      · subst h; exact hu
      · exact ih c h

theorem escapeChars_eq_self (l : List Char) (h : l.any isUpper = false) : escapeChars l = l := by
  induction l with
  | nil => rfl
  | cons r rs ih =>
    simp only [List.any_cons, Bool.or_eq_false_iff] at h
    simp only [escapeChars, h.1, Bool.false_eq_true, if_false, ih h.2]

theorem escapeChars_injective : ∀ (a b : List Char), '!' ∉ a → '!' ∉ b →
    escapeChars a = escapeChars b → a = b := by
  intro a
  induction a with
  | nil =>
    intro b _ _ h
    cases b with
    | nil => rfl
    | cons q bs =>
      simp only [escapeChars] at h
      split at h <;> simp at h
  | cons r as ih =>
    intro b ha hb h
    cases b with
    | nil =>
      simp only [escapeChars] at h
      split at h <;> simp at h
    | cons q bs =>
      simp only [List.mem_cons, not_or] at ha hb
      simp only [escapeChars] at h
      cases hr : isUpper r <;> cases hq : isUpper q
      · simp only [hr, hq, Bool.false_eq_true, if_false, List.cons.injEq] at h
        rw [h.1, ih bs ha.2 hb.2 h.2]
      · simp only [hr, hq, Bool.false_eq_true, if_false, if_true, List.cons.injEq] at h
        exact absurd h.1.symm ha.1
      · simp only [hr, hq, Bool.false_eq_true, if_false, if_true, List.cons.injEq] at h
        exact absurd h.1 hb.1
      · simp only [hr, hq, if_true, List.cons.injEq, true_and] at h
        rw [lower_injective r q hr hq h.1, ih bs ha.2 hb.2 h.2]

theorem escapeString_ok (s e : String) (h : escapeString s = .ok e) :
    e.data = escapeChars s.data ∧ '!' ∉ s.data := by
  unfold escapeString at h
  split at h
  · exact absurd h (by simp)
  · rename_i hbang
    have hno : '!' ∉ s.data := by
      intro hmem
      apply hbang
      rw [List.any_eq_true]
      exact ⟨'!', hmem, by simp⟩
    refine ⟨?_, hno⟩
    split at h
    · rename_i hup
      simp only [Except.ok.injEq] at h
      rw [← h, escapeChars_eq_self]
      simpa using hup
    · simp only [Except.ok.injEq] at h
      rw [← h]

theorem escapeString_injective (a b e : String) (ha : escapeString a = .ok e)
    (hb : escapeString b = .ok e) : a = b := by
  obtain ⟨h1, h2⟩ := escapeString_ok a e ha
  obtain ⟨h3, h4⟩ := escapeString_ok b e hb
  apply String.ext
  exact escapeChars_injective _ _ h2 h4 (by rw [← h1, ← h3])

theorem EscapePath_ok (chk : String → Bool) (p e : String) (h : EscapePath chk p = .ok e) :
    escapeString p = .ok e := by
  unfold EscapePath at h
  split at h
  · exact absurd h (by simp)
  · exact h

theorem EscapeVersion_ok (chk : String → Bool) (v e : String) (h : EscapeVersion chk v = .ok e) :
    escapeString v = .ok e := by
  unfold EscapeVersion at h
  split at h
  · exact absurd h (by simp)
  · exact h

end module

/-! ## Properties of the file system model -/

theorem lookupNode_setNode_same (p : List String) (n : Node) :
    ∀ l : List (List String × Node), lookupNode p (setNode p n l) = some n := by
  intro l
  induction l with
  | nil => simp [setNode, lookupNode]
  | cons x xs ih =>
    obtain ⟨q, m⟩ := x
    simp only [setNode]
    by_cases hq : q = p
    · simp [hq, lookupNode]
    · simp [hq, lookupNode, ih]

theorem lookupNode_setNode_ne (p q : List String) (n : Node) (hne : q ≠ p) :
    ∀ l : List (List String × Node), lookupNode q (setNode p n l) = lookupNode q l := by
  intro l
  induction l with
  | nil =>
    have hpq : ¬ p = q := fun h => hne h.symm
    simp [setNode, lookupNode, hpq]
  | cons x xs ih =>
    obtain ⟨r, m⟩ := x
    simp only [setNode]
    by_cases hr : r = p
    · have hpq : ¬ p = q := fun h => hne h.symm
      have hrq : ¬ r = q := by rw [hr]; exact hpq
      simp [hr, lookupNode, hpq]
    · by_cases hrq : r = q
      · subst hrq
        simp [hr, lookupNode]
      · simp [hr, lookupNode, hrq, ih]

theorem node_set_same (d : Disk) (p : List String) (n : Node) (hp : p ≠ []) :
    (d.set p n).node p = some n := by
  unfold Disk.node Disk.set
  simp only [hp, if_false]
  exact lookupNode_setNode_same p n d.nodes

theorem node_set_ne (d : Disk) (p q : List String) (n : Node) (hne : q ≠ p) :
    (d.set p n).node q = d.node q := by
  unfold Disk.node Disk.set
  by_cases hq : q = []
  · simp [hq]
  · simp only [hq, if_false]
    exact lookupNode_setNode_ne p q n hne d.nodes

theorem walk_concat (d : Disk) (e : String) : ∀ (xs cur : List String),
    d.walk cur (xs ++ [e]) =
      match d.walk cur xs with
      | .ok .dir =>
        match d.node (cur ++ xs ++ [e]) with
        | some n => .ok n
        | none => .error .ENOENT
      | .ok (.file _) => .error .ENOTDIR
      | .error errno => .error errno := by
  intro xs
  induction xs with
  | nil =>
    intro cur
    simp only [List.nil_append, Disk.walk, List.append_nil]
    cases hn : d.node cur with
    | none => rfl
    | some n => cases n <;> rfl
  | cons x xs ih =>
    intro cur
    simp only [List.cons_append, Disk.walk, List.append_eq]
    cases hn : d.node cur with
    | none => rfl
    | some n =>
      cases n with
      | file c => rfl
      | dir =>
        simp only
        rw [ih (cur ++ [x])]
        simp only [List.append_assoc, List.singleton_append]

theorem walk_set_short (d : Disk) (p : List String) (n : Node) : ∀ (xs cur : List String),
    cur.length + xs.length < p.length → (d.set p n).walk cur xs = d.walk cur xs := by
  intro xs
  induction xs with
  | nil =>
    intro cur hlen
    have hne : cur ≠ p := by
      intro h
      rw [h] at hlen
      simp at hlen
    simp only [Disk.walk, node_set_ne d p cur n hne]
  | cons x xs ih =>
    intro cur hlen
    have hne : cur ≠ p := by
      intro h
      rw [h] at hlen
      simp at hlen
    simp only [Disk.walk, node_set_ne d p cur n hne]
    have hlen2 : (cur ++ [x]).length + xs.length < p.length := by
      simp only [List.length_append, List.length_cons, List.length_nil] at hlen ⊢
      omega
    rw [ih (cur ++ [x]) hlen2]

theorem walk_file_parent (d : Disk) (q : List String) (e c : String)
    (h : d.walk [] (q ++ [e]) = .ok (.file c)) :
    d.walk [] q = .ok .dir ∧ d.node (q ++ [e]) = some (.file c) := by
  rw [walk_concat] at h
  cases hq : d.walk [] q with
  | error errno => rw [hq] at h; simp at h
  | ok n =>
    cases n with
    | file c2 => rw [hq] at h; simp at h
    | dir =>
      rw [hq] at h
      simp only [List.nil_append] at h
      refine ⟨rfl, ?_⟩
      cases hn : d.node (q ++ [e]) with
      | none => rw [hn] at h; simp at h
      | some n2 =>
        rw [hn] at h
        simp only [Except.ok.injEq] at h
        rw [h]

theorem walk_set_file (d : Disk) (q : List String) (e : String) (n : Node)
    (hq : d.walk [] q = .ok .dir) :
    (d.set (q ++ [e]) n).walk [] (q ++ [e]) = .ok n := by
  rw [walk_concat]
  have hlen : ([] : List String).length + q.length < (q ++ [e]).length := by simp
  rw [walk_set_short d (q ++ [e]) n q [] hlen, hq]
  simp only [List.nil_append]
  rw [node_set_same d (q ++ [e]) n (by simp)]

theorem walk_set_parent (d : Disk) (q : List String) (e : String) (n : Node) :
    (d.set (q ++ [e]) n).walk [] q = d.walk [] q := by
  apply walk_set_short
  simp

theorem splitOn_append (sep : Char) (b : List Char) : ∀ a : List Char,
    splitOn sep (a ++ sep :: b) = splitOn sep a ++ splitOn sep b := by
  intro a
  induction a with
  | nil => simp [splitOn]
  | cons c cs ih =>
    simp only [List.cons_append, splitOn, List.append_eq]
    by_cases hc : c = sep
    · simp [hc, ih]
    · simp only [hc, if_false]
      rw [ih]
      have hne := splitOn_ne_nil sep cs
      cases hs : splitOn sep cs with
      | nil => exact absurd hs hne
      | cons l ls => simp

theorem splitOn_no_sep (sep : Char) : ∀ (l : List Char), ∀ e ∈ splitOn sep l, sep ∉ e := by
  intro l
  induction l with
  | nil => intro e he; simp [splitOn] at he; simp [he]
  | cons c cs ih =>
    intro e he
    simp only [splitOn] at he
    by_cases hc : c = sep
    · simp only [hc, if_true, List.mem_cons] at he
      rcases he with h | h
      · rw [h]; simp
      · exact ih e h
    · simp only [hc, if_false] at he
      cases hs : splitOn sep cs with
      | nil => exact absurd hs (splitOn_ne_nil sep cs)
      | cons l ls =>
        rw [hs] at he
        simp only [List.mem_cons] at he
        rcases he with h | h
        · rw [h]
          simp only [List.mem_cons, not_or]
          refine ⟨fun h2 => hc h2.symm, ?_⟩
          apply ih l
          rw [hs]
          exact List.mem_cons_self _ _
        · apply ih e
          rw [hs]
          exact List.mem_cons_of_mem _ h

theorem splitOn_of_no_sep (sep : Char) : ∀ l : List Char, sep ∉ l → splitOn sep l = [l] := by
  intro l
  induction l with
  | nil => intro _; rfl
  | cons c cs ih =>
    intro h
    simp only [List.mem_cons, not_or] at h
    have hc : ¬ c = sep := fun h2 => h.1 h2.symm
    simp only [splitOn, hc, if_false, ih h.2]

theorem splitOn_mem (sep : Char) : ∀ (l : List Char), ∀ e ∈ splitOn sep l, ∀ c ∈ e, c ∈ l := by
  intro l
  induction l with
  | nil => intro e he c hc; simp [splitOn] at he; rw [he] at hc; exact hc
  | cons a cs ih =>
    intro e he c hc
    simp only [splitOn] at he
    by_cases ha : a = sep
    · simp only [ha, if_true, List.mem_cons] at he
      rcases he with h | h
      · rw [h] at hc; exact absurd hc (List.not_mem_nil _)
      · exact List.mem_cons_of_mem _ (ih e h c hc)
    · simp only [ha, if_false] at he
      cases hs : splitOn sep cs with
      | nil => exact absurd hs (splitOn_ne_nil sep cs)
      | cons l ls =>
        rw [hs] at he
        simp only [List.mem_cons] at he
        rcases he with h | h
        · rw [h] at hc
          rcases List.mem_cons.mp hc with h2 | h2
          · rw [h2]; exact List.mem_cons_self _ _
          · apply List.mem_cons_of_mem
            apply ih l _ c h2
            rw [hs]
            exact List.mem_cons_self _ _
        · apply List.mem_cons_of_mem
          apply ih e _ c hc
          rw [hs]
          exact List.mem_cons_of_mem _ h

theorem pathElems_append (F rest : String) :
    pathElems (F ++ "/" ++ rest) = pathElems F ++ pathElems rest := by
  unfold pathElems
  have hd : (F ++ "/" ++ rest).data = F.data ++ '/' :: rest.data := by
    simp [String.data_append]
  rw [hd, splitOn_append, List.map_append]

theorem resolvePath_append (F rest : String) :
    resolvePath (F ++ "/" ++ rest) = (pathElems rest).foldl resolveStep (resolvePath F) := by
  unfold resolvePath
  rw [pathElems_append, List.foldl_append]

theorem pathElems_of_no_slash (e : String) (h : '/' ∉ e.data) : pathElems e = [e] := by
  unfold pathElems
  rw [splitOn_of_no_sep '/' e.data h]
  rfl

theorem pathElems_joinElems : ∀ (st : List String), st ≠ [] → (∀ e ∈ st, '/' ∉ e.data) →
    pathElems (joinElems st) = st := by
  intro st
  induction st with
  | nil => intro h _; exact absurd rfl h
  | cons e rest ih =>
    intro _ hall
    cases rest with
    | nil =>
      simp only [joinElems]
      exact pathElems_of_no_slash e (hall e (List.mem_cons_self _ _))
    | cons e2 rest2 =>
      simp only [joinElems]
      rw [pathElems_append, pathElems_of_no_slash e (hall e (List.mem_cons_self _ _)),
        ih (by simp) (fun x hx => hall x (List.mem_cons_of_mem _ hx))]
      rfl

theorem foldl_resolveStep_real : ∀ (R acc : List String), (∀ e ∈ R, RealElem e) →
    R.foldl resolveStep acc = acc ++ R := by
  intro R
  induction R with
  | nil => intro acc _; simp
  | cons e rest ih =>
    intro acc hall
    obtain ⟨h1, h2, h3, _⟩ := hall e (List.mem_cons_self _ _)
    rw [List.foldl_cons]
    have hstep : resolveStep acc e = acc ++ [e] := by
      unfold resolveStep
      simp [h1, h2, h3]
    rw [hstep, ih _ (fun x hx => hall x (List.mem_cons_of_mem _ hx))]
    simp

theorem foldl_resolveStep_dots : ∀ k : Nat,
    (List.replicate k "..").foldl resolveStep [] = [] := by
  intro k
  induction k with
  | zero => rfl
  | succ n ih =>
    rw [List.replicate_succ, List.foldl_cons]
    have : resolveStep [] ".." = [] := by decide
    rw [this, ih]

theorem realElem_dotdot_ne (e : String) (h : RealElem e) : e ≠ ".." := h.2.2.1

/-- The loop of `Clean` and path resolution keep in step: what `Clean` has
written is what resolution has reached, behind `..` elements that only a
relative path keeps. -/
theorem clean_resolve_inv (rooted : Bool) : ∀ (elems C R : List String) (k : Nat),
    (∀ e ∈ elems, '/' ∉ e.data) → C = List.replicate k ".." ++ R → (rooted = true → k = 0) →
    (∀ e ∈ R, RealElem e) →
    ∃ k2, elems.foldl (cleanStep rooted) C = List.replicate k2 ".." ++ elems.foldl resolveStep R ∧
      (rooted = true → k2 = 0) ∧ (∀ e ∈ elems.foldl resolveStep R, RealElem e) := by
  intro elems
  induction elems with
  | nil =>
    intro C R k _ hC hk hR
    exact ⟨k, hC, hk, hR⟩
  | cons e rest ih =>
    intro C R k hno hC hk hR
    have hno2 : ∀ x ∈ rest, '/' ∉ x.data := fun x hx => hno x (List.mem_cons_of_mem _ hx)
    rw [List.foldl_cons, List.foldl_cons]
    by_cases h1 : e = "" ∨ e = "."
    · have hc : cleanStep rooted C e = C := by unfold cleanStep; rw [if_pos h1]
      have hr : resolveStep R e = R := by unfold resolveStep; rw [if_pos h1]
      rw [hc, hr]
      exact ih C R k hno2 hC hk hR
    · by_cases h2 : e = ".."
      · have hr : resolveStep R e = R.dropLast := by
          unfold resolveStep
          rw [if_neg h1, if_pos h2]
        rw [hr]
        have hRd : ∀ x ∈ R.dropLast, RealElem x :=
          fun x hx => hR x ((List.dropLast_sublist R).subset hx)
        rcases List.eq_nil_or_concat R with hnil | ⟨R0, r, hR0⟩
        · subst hnil
          cases k with
          | zero =>
            have hCnil : C = [] := by simpa using hC
            have hc : cleanStep rooted C e = if rooted = true then [] else [".."] := by
              unfold cleanStep
              rw [if_neg h1, if_pos h2, hCnil]
              rfl
            rw [hc]
            cases rooted with
            | true =>
              exact ih [] [] 0 hno2 (by simp) (fun _ => rfl) (by simp)
            | false =>
              exact ih [".."] [] 1 hno2 (by simp) (fun h => absurd h (by simp)) (by simp)
          | succ n =>
            have hroot : rooted = false := by
              cases rooted with
              | false => rfl
              | true => exact absurd (hk rfl) (by simp)
            have hC2 : C = List.replicate n ".." ++ [".."] := by
              rw [hC, List.append_nil, List.replicate_succ']
            have hc : cleanStep rooted C e = C ++ [".."] := by
              unfold cleanStep
              rw [if_neg h1, if_pos h2, hC2, List.getLast?_concat]
              simp
            rw [hc]
            apply ih (C ++ [".."]) [] (n + 2) hno2
            · rw [hC2, List.replicate_succ', List.replicate_succ']
              simp
            · intro h
              rw [hroot] at h
              exact absurd h (by simp)
            · simp
        · rw [List.concat_eq_append] at hR0
          subst hR0
          have hreal := hR r (by simp)
          have hC2 : C = (List.replicate k ".." ++ R0) ++ [r] := by
            rw [hC, List.append_assoc]
          have hc : cleanStep rooted C e = List.replicate k ".." ++ R0 := by
            unfold cleanStep
            rw [if_neg h1, if_pos h2, hC2, List.getLast?_concat]
            simp only [hreal.2.2.1, if_false, List.dropLast_concat]
          rw [hc]
          have hdl : (R0 ++ [r]).dropLast = R0 := List.dropLast_concat
          rw [hdl]
          exact ih _ R0 k hno2 rfl hk (fun x hx => hR x (by simp [hx]))
      · have hreal : RealElem e := by
          refine ⟨fun h => h1 (Or.inl h), fun h => h1 (Or.inr h), h2, ?_⟩
          exact hno e (List.mem_cons_self _ _)
        have hc : cleanStep rooted C e = C ++ [e] := by
          unfold cleanStep
          rw [if_neg h1, if_neg h2]
        have hr : resolveStep R e = R ++ [e] := by
          unfold resolveStep
          rw [if_neg h1, if_neg h2]
        rw [hc, hr]
        apply ih (C ++ [e]) (R ++ [e]) k hno2
        · rw [hC, List.append_assoc]
        · exact hk
        · intro x hx
          rcases List.mem_append.mp hx with h | h
          · exact hR x h
          · simp only [List.mem_singleton] at h
            rw [h]
            exact hreal

theorem pathElems_no_slash (p : String) : ∀ e ∈ pathElems p, '/' ∉ e.data := by
  intro e he
  unfold pathElems at he
  rw [List.mem_map] at he
  obtain ⟨l, hl, hle⟩ := he
  rw [← hle]
  exact splitOn_no_sep '/' p.data l hl

/-- Cleaning a path does not change what it resolves to. -/
theorem resolvePath_Clean (p : String) : resolvePath (Clean p) = resolvePath p := by
  unfold Clean
  by_cases hp : p = ""
  · rw [if_pos hp, hp]
    decide
  · rw [if_neg hp]
    simp only
    obtain ⟨k2, hfold, hk2, hreal⟩ := clean_resolve_inv (p.data.head? == some '/')
      (pathElems p) [] [] 0 (pathElems_no_slash p) (by simp) (fun _ => rfl) (by simp)
    have hres : (pathElems p).foldl resolveStep [] = resolvePath p := rfl
    rw [hres] at hfold hreal
    rw [hfold]
    cases hroot : (p.data.head? == some '/') with
    | true =>
      have hk : k2 = 0 := hk2 hroot
      subst hk
      simp only [if_true, List.replicate_zero, List.nil_append]
      have hd : resolvePath ("/" ++ joinElems (resolvePath p))
          = (pathElems (joinElems (resolvePath p))).foldl resolveStep [] := by
        have h0 : ("/" : String) ++ joinElems (resolvePath p)
            = "" ++ "/" ++ joinElems (resolvePath p) := by
          simp
        rw [h0, resolvePath_append]
        rfl
      rw [hd]
      cases hR : resolvePath p with
      | nil => decide
      | cons r rs =>
        rw [← hR, pathElems_joinElems _ (by rw [hR]; simp) (fun e he => (hreal e he).2.2.2)]
        rw [foldl_resolveStep_real _ _ hreal]
        simp
    | false =>
      simp only [Bool.false_eq_true, if_false]
      by_cases hout : (List.replicate k2 ".." ++ resolvePath p).isEmpty = true
      · rw [if_pos hout]
        have hnil : List.replicate k2 ".." ++ resolvePath p = [] := by simpa using hout
        have hR : resolvePath p = [] := (List.append_eq_nil.mp hnil).2
        rw [hR]
        decide
      · rw [if_neg hout]
        have hne : List.replicate k2 ".." ++ resolvePath p ≠ [] := by
          intro h
          apply hout
          rw [h]
          rfl
        have hns : ∀ e ∈ List.replicate k2 ".." ++ resolvePath p, '/' ∉ e.data := by
          intro e he
          rcases List.mem_append.mp he with h | h
          · rw [(List.mem_replicate.mp h).2]
            decide
          · exact (hreal e h).2.2.2
        have hd : resolvePath (joinElems (List.replicate k2 ".." ++ resolvePath p))
            = (pathElems (joinElems (List.replicate k2 ".." ++ resolvePath p))).foldl
                resolveStep [] := rfl
        rw [hd, pathElems_joinElems _ hne hns, List.foldl_append, foldl_resolveStep_dots,
          foldl_resolveStep_real _ _ hreal]
        simp

theorem resolvePath_Join_pair (F x : String) :
    resolvePath (Join [F, x]) = (pathElems x).foldl resolveStep (resolvePath F) := by
  by_cases hF : F = ""
  · subst hF
    by_cases hx : x = ""
    · subst hx
      decide
    · have hx2 : (x == "") = false := beq_eq_false_iff_ne.mpr hx
      have hj : Join ["", x] = Clean x := by
        simp [Join, List.dropWhile, hx2, joinElems]
      rw [hj, resolvePath_Clean]
      rfl
  · have hF2 : (F == "") = false := beq_eq_false_iff_ne.mpr hF
    have hj : Join [F, x] = Clean (F ++ "/" ++ x) := by
      simp [Join, List.dropWhile, hF2, joinElems]
    rw [hj, resolvePath_Clean, resolvePath_append]

theorem resolvePath_Join_triple (F x y : String) (hx : x ≠ "") :
    resolvePath (Join [F, x, y])
      = (pathElems y).foldl resolveStep ((pathElems x).foldl resolveStep (resolvePath F)) := by
  by_cases hF : F = ""
  · subst hF
    have hx2 : (x == "") = false := beq_eq_false_iff_ne.mpr hx
    have hj : Join ["", x, y] = Clean (x ++ "/" ++ y) := by
      simp [Join, List.dropWhile, hx2, joinElems]
    rw [hj, resolvePath_Clean, resolvePath_append]
    rfl
  · have hF2 : (F == "") = false := beq_eq_false_iff_ne.mpr hF
    have hj : Join [F, x, y] = Clean (F ++ "/" ++ (x ++ "/" ++ y)) := by
      simp [Join, List.dropWhile, hF2, joinElems]
    rw [hj, resolvePath_Clean, resolvePath_append, pathElems_append, List.foldl_append]

theorem resolvePath_versFolder (F : String) :
    resolvePath (Join [F, moduleVersFolderName]) = resolvePath F ++ ["@v"] := by
  rw [resolvePath_Join_pair]
  have : pathElems moduleVersFolderName = ["@v"] := by decide
  rw [this]
  simp [resolveStep]

theorem resolvePath_listFile (f : ModuleProxyFolder) :
    resolvePath f.listFilePath = (resolvePath f.FolderPath ++ ["@v"]) ++ ["list"] := by
  unfold ModuleProxyFolder.listFilePath
  rw [resolvePath_Join_triple _ _ _ (by decide)]
  have h1 : pathElems moduleVersFolderName = ["@v"] := by decide
  have h2 : pathElems moduleListFileName = ["list"] := by decide
  rw [h1, h2]
  simp [resolveStep]

/-! ## Properties of trimming and line scanning -/

theorem trim_fixed_ends (l : List Char) (h : trimSpaceChars l = l) :
    l.dropWhile isSpace = l ∧ l.reverse.dropWhile isSpace = l.reverse := by
  unfold trimSpaceChars at h
  have hlen1 : (l.dropWhile isSpace).length ≤ l.length :=
    (List.dropWhile_suffix isSpace).length_le
  have hlen2 : ((l.dropWhile isSpace).reverse.dropWhile isSpace).length
      ≤ (l.dropWhile isSpace).reverse.length := (List.dropWhile_suffix isSpace).length_le
  have hlen3 := congrArg List.length h
  simp only [List.length_reverse] at hlen2 hlen3
  have hy : l.dropWhile isSpace = l :=
    (List.dropWhile_suffix isSpace).eq_of_length (by omega)
  rw [hy] at h
  refine ⟨hy, ?_⟩
  have h2 := congrArg List.reverse h
  simpa using h2

theorem trim_of_ends (l : List Char) (h1 : l.dropWhile isSpace = l)
    (h2 : l.reverse.dropWhile isSpace = l.reverse) : trimSpaceChars l = l := by
  unfold trimSpaceChars
  rw [h1, h2, List.reverse_reverse]

theorem dropWhile_prefix_fixed (l : List Char) : ∀ z : List Char,
    z <+: l.dropWhile isSpace → z.dropWhile isSpace = z := by
  intro z hpre
  obtain ⟨t, ht⟩ := hpre
  cases z with
  | nil => rfl
  | cons c z =>
    have hy : (l.dropWhile isSpace).dropWhile isSpace = l.dropWhile isSpace :=
      List.dropWhile_idempotent isSpace l
    rw [← ht] at hy
    simp only [List.cons_append, List.dropWhile_cons] at hy
    cases hc : isSpace c with
    | false => simp [List.dropWhile_cons, hc]
    | true =>
      rw [hc] at hy
      simp only [if_true] at hy
      have hlen := congrArg List.length hy
      have hle : (List.dropWhile isSpace (z ++ t)).length ≤ (z ++ t).length :=
        (List.dropWhile_suffix isSpace).length_le
      simp only [List.length_cons] at hlen
      omega

theorem trim_idempotent (l : List Char) :
    trimSpaceChars (trimSpaceChars l) = trimSpaceChars l := by
  apply trim_of_ends
  · apply dropWhile_prefix_fixed l
    unfold trimSpaceChars
    exact List.rdropWhile_prefix isSpace _
  · unfold trimSpaceChars
    rw [List.reverse_reverse]
    exact List.dropWhile_idempotent isSpace _

theorem trim_sublist (l : List Char) : (trimSpaceChars l).Sublist l := by
  unfold trimSpaceChars
  have h1 : ((l.dropWhile isSpace).reverse.dropWhile isSpace).Sublist
      (l.dropWhile isSpace).reverse := List.dropWhile_sublist isSpace
  have h2 := List.reverse_sublist.mpr h1
  rw [List.reverse_reverse] at h2
  exact h2.trans (List.dropWhile_sublist isSpace)

theorem dropCR_sublist (l : List Char) : (dropCR l).Sublist l := by
  unfold dropCR
  split
  · exact List.dropLast_sublist l
  · exact List.Sublist.refl l

theorem dropCR_of_trimmed (l : List Char) (h : trimSpaceChars l = l) : dropCR l = l := by
  unfold dropCR
  split
  · rename_i hlast
    obtain ⟨ys, hys⟩ := List.getLast?_eq_some_iff.mp hlast
    have h2 := (trim_fixed_ends l h).2
    rw [List.dropWhile_eq_self_iff] at h2
    have hpos : 0 < l.reverse.length := by rw [hys]; simp
    have hc := h2 hpos
    simp only [hys, List.reverse_append, List.reverse_cons, List.reverse_nil, List.nil_append,
      List.singleton_append, List.get_eq_getElem, List.getElem_cons_zero] at hc
    exact absurd (by decide : isSpace '\r' = true) hc
  · rfl

theorem byteLen_sublist (a b : List Char) (h : a.Sublist b) : byteLen a ≤ byteLen b := by
  unfold byteLen
  exact (h.map utf8Len).sum_le_sum (fun _ _ => Nat.zero_le _)

theorem scanTokens_line (rest : List Char) : ∀ x : List Char, '\n' ∉ x →
    scanTokens (x ++ '\n' :: rest) = x :: scanTokens rest := by
  intro x
  induction x with
  | nil => intro _; simp [scanTokens]
  | cons c cs ih =>
    intro hx
    simp only [List.mem_cons, not_or] at hx
    have hc : ¬ c = '\n' := fun h => hx.1 h.symm
    simp only [List.cons_append, scanTokens, List.append_eq, hc, if_false]
    rw [ih hx.2]

theorem scanTokens_no_newline : ∀ (l : List Char), ∀ t ∈ scanTokens l, '\n' ∉ t := by
  intro l
  induction l with
  | nil => intro t ht; simp [scanTokens] at ht
  | cons c cs ih =>
    intro t ht
    simp only [scanTokens] at ht
    by_cases hc : c = '\n'
    · simp only [hc, if_true, List.mem_cons] at ht
      rcases ht with h | h
      · rw [h]; simp
      · exact ih t h
    · simp only [hc, if_false] at ht
      cases hs : scanTokens cs with
      | nil =>
        rw [hs] at ht
        simp only [List.mem_singleton] at ht
        rw [ht]
        simp only [List.mem_singleton]
        exact fun h => hc h.symm
      | cons l ls =>
        rw [hs] at ht
        simp only [List.mem_cons] at ht
        rcases ht with h | h
        · rw [h]
          simp only [List.mem_cons, not_or]
          refine ⟨fun h2 => hc h2.symm, ?_⟩
          apply ih l
          rw [hs]
          exact List.mem_cons_self _ _
        · apply ih t
          rw [hs]
          exact List.mem_cons_of_mem _ h

theorem loadLoop_plain (m : String) : ∀ (toks : List (List Char)) (vers : List module.Version),
    (∀ t ∈ toks, '\n' ∉ t) → loadLoop m toks = .ok vers →
    ∀ v ∈ vers, v.Path = m ∧ PlainVersion v.Version := by
  intro toks
  induction toks with
  | nil =>
    intro vers _ h v hv
    simp only [loadLoop, Except.ok.injEq] at h
    rw [← h] at hv
    exact absurd hv (List.not_mem_nil _)
  | cons raw rest ih =>
    intro vers hno h v hv
    simp only [loadLoop] at h
    split at h
    · exact absurd h (by simp)
    · split at h
      · exact absurd h (by simp)
      · rename_i vs hrest
        have hih := ih vs (fun t ht => hno t (List.mem_cons_of_mem _ ht)) hrest
        split at h
        · simp only [Except.ok.injEq] at h
          rw [← h] at hv
          exact hih v hv
        · rename_i hne
          simp only [Except.ok.injEq] at h
          rw [← h] at hv
          rcases List.mem_cons.mp hv with h1 | h1
          · rw [h1]
            refine ⟨rfl, hne, ?_, ?_⟩
            · unfold TrimSpace
              simp only [trim_idempotent]
            · intro hmem
              have hsub : (trimSpaceChars (dropCR raw)).Sublist raw :=
                (trim_sublist _).trans (dropCR_sublist raw)
              exact hno raw (List.mem_cons_self _ _) (hsub.subset hmem)
          · exact hih v h1

/-- Reading back what `SaveVersionList` wrote gives the saved list, unless a
line is too long for the scanner. -/
theorem loadLoop_render (m : String) : ∀ (vs : List module.Version),
    (∀ v ∈ vs, v.Path = m ∧ PlainVersion v.Version) →
    loadLoop m (scanTokens (renderList vs)) = .ok vs ∨
    loadLoop m (scanTokens (renderList vs)) = .error .ErrTooLong := by
  intro vs
  induction vs with
  | nil => intro _; exact Or.inl rfl
  | cons v vs ih =>
    intro hall
    obtain ⟨hpath, hne, htrim, hnl⟩ := hall v (List.mem_cons_self _ _)
    have hrest := ih (fun w hw => hall w (List.mem_cons_of_mem _ hw))
    simp only [renderList]
    rw [scanTokens_line _ _ hnl]
    simp only [loadLoop]
    by_cases hlen : byteLen v.Version.data ≥ MaxScanTokenSize
    · rw [if_pos hlen]
      exact Or.inr rfl
    · rw [if_neg hlen]
      have htd : trimSpaceChars v.Version.data = v.Version.data := by
        have := congrArg String.data htrim
        simpa [TrimSpace] using this
      have hv : TrimSpace (String.mk (dropCR v.Version.data)) = v.Version := by
        rw [dropCR_of_trimmed _ htd]
        exact htrim
      rcases hrest with h | h
      · left
        rw [h]
        simp only [hv, hne, if_false]
        cases v
        simp only at hpath
        rw [hpath]
      · right
        rw [h]

/-! ## Valid versions are plain -/

namespace semver

theorem isDigit_versionChar (c : Char) (h : isDigit c = true) : versionChar c = true := by
  unfold isDigit at h
  unfold versionChar isIdentChar
  rw [h]
  simp

theorem versionChar_not_space (c : Char) (h : versionChar c = true) : isSpace c = false := by
  have key : ∀ n : Nat, (65 ≤ n ∧ n ≤ 90) ∨ (97 ≤ n ∧ n ≤ 122) ∨ (48 ≤ n ∧ n ≤ 57) ∨ n = 45
      ∨ n = 46 ∨ n = 43 →
      (n == 0x09 || n == 0x0a || n == 0x0b || n == 0x0c || n == 0x0d || n == 0x20 ||
        n == 0x85 || n == 0xa0 || n == 0x1680 || (decide (0x2000 ≤ n) && decide (n ≤ 0x200a)) ||
        n == 0x2028 || n == 0x2029 || n == 0x202f || n == 0x205f || n == 0x3000) = false := by
    intro n hn
    simp only [Bool.or_eq_false_iff, Bool.and_eq_false_iff, beq_eq_false_iff_ne,
      decide_eq_false_iff_not]
    omega
  unfold isSpace
  apply key
  unfold versionChar isIdentChar at h
  simp only [Bool.or_eq_true, Bool.and_eq_true, decide_eq_true_eq, beq_iff_eq] at h
  have hA : 'A'.toNat = 65 := rfl
  have hZ : 'Z'.toNat = 90 := rfl
  have ha : 'a'.toNat = 97 := rfl
  have hz : 'z'.toNat = 122 := rfl
  have h0 : '0'.toNat = 48 := rfl
  have h9 : '9'.toNat = 57 := rfl
  rw [hA, hZ, ha, hz, h0, h9] at h
  rcases h with ((((h | h) | h) | h) | h) | h
  · exact Or.inl h
  · exact Or.inr (Or.inl h)
  · exact Or.inr (Or.inr (Or.inl h))
  · rw [h]; exact Or.inr (Or.inr (Or.inr (Or.inl rfl)))
  · rw [h]; exact Or.inr (Or.inr (Or.inr (Or.inr (Or.inl rfl))))
  · rw [h]; exact Or.inr (Or.inr (Or.inr (Or.inr (Or.inr rfl))))

theorem parseInt_chars (v t rest : List Char) (h : parseInt v = some (t, rest)) :
    v = t ++ rest ∧ ∀ c ∈ t, versionChar c = true := by
  cases v with
  | nil => simp [parseInt] at h
  | cons c cs =>
    simp only [parseInt] at h
    split at h
    · exact absurd h (by simp)
    · rename_i hd
      split at h
      · exact absurd h (by simp)
      · simp only [Option.some.injEq, Prod.mk.injEq] at h
        obtain ⟨h1, h2⟩ := h
        constructor
        · rw [← h1, ← h2]
          simp [List.takeWhile_append_dropWhile]
        · intro x hx
          rw [← h1] at hx
          rcases List.mem_cons.mp hx with hx1 | hx1
          · rw [hx1]
            apply isDigit_versionChar
            simpa using hd
          · exact isDigit_versionChar x (List.mem_takeWhile_imp hx1)

theorem prereleaseLoop_chars : ∀ (v cur acc t r : List Char),
    prereleaseLoop v cur acc = some (t, r) →
    ∃ u, t = acc.reverse ++ u ∧ v = u ++ r ∧ (∀ c ∈ u, versionChar c = true) ∧
      (r = [] ∨ ∃ r2, r = '+' :: r2) := by
  intro v
  induction v with
  | nil =>
    intro cur acc t r h
    simp only [prereleaseLoop] at h
    split at h
    · exact absurd h (by simp)
    · simp only [Option.some.injEq, Prod.mk.injEq] at h
      exact ⟨[], by simp [h.1], by simp [h.2], by simp, Or.inl h.2.symm⟩
  | cons c cs ih =>
    intro cur acc t r h
    simp only [prereleaseLoop] at h
    split at h
    · rename_i hplus
      split at h
      · exact absurd h (by simp)
      · simp only [Option.some.injEq, Prod.mk.injEq] at h
        have hc : c = '+' := by simpa using hplus
        exact ⟨[], by simp [h.1], by simp [h.2], by simp, Or.inr ⟨cs, by rw [← h.2, hc]⟩⟩
    · split at h
      · exact absurd h (by simp)
      · rename_i hok
        have hvc : versionChar c = true := by
          unfold versionChar
          simp only [Bool.and_eq_true, Bool.not_eq_true', bne_iff_ne, ne_eq, not_and,
            Bool.not_eq_false, Decidable.not_not] at hok
          cases hi : isIdentChar c with
          | true => simp
          | false =>
            have := hok hi
            simp [this]
        split at h
        · split at h
          · exact absurd h (by simp)
          · obtain ⟨u, hu1, hu2, hu3, hu4⟩ := ih [] (c :: acc) t r h
            refine ⟨c :: u, by simp [hu1], by simp [hu2], ?_, hu4⟩
            intro x hx
            rcases List.mem_cons.mp hx with hx1 | hx1
            · rw [hx1]; exact hvc
            · exact hu3 x hx1
        · obtain ⟨u, hu1, hu2, hu3, hu4⟩ := ih (c :: cur) (c :: acc) t r h
          refine ⟨c :: u, by simp [hu1], by simp [hu2], ?_, hu4⟩
          intro x hx
          rcases List.mem_cons.mp hx with hx1 | hx1
          · rw [hx1]; exact hvc
          · exact hu3 x hx1

theorem parsePrerelease_chars (v t r : List Char) (h : parsePrerelease v = some (t, r)) :
    v = t ++ r ∧ ∀ c ∈ t, versionChar c = true := by
  cases v with
  | nil => simp [parsePrerelease] at h
  | cons c cs =>
    simp only [parsePrerelease] at h
    split at h
    · exact absurd h (by simp)
    · rename_i hc
      have hc2 : c = '-' := by simpa using hc
      obtain ⟨u, hu1, hu2, hu3, _⟩ := prereleaseLoop_chars cs [] [c] t r h
      constructor
      · rw [hu1, hu2]
        simp
      · intro x hx
        rw [hu1] at hx
        simp only [List.reverse_cons, List.reverse_nil, List.nil_append, List.singleton_append,
          List.mem_cons] at hx
        rcases hx with hx1 | hx1
        · rw [hx1, hc2]; decide
        · exact hu3 x hx1

theorem buildLoop_chars : ∀ (v cur acc t r : List Char),
    buildLoop v cur acc = some (t, r) →
    ∃ u, t = acc.reverse ++ u ∧ v = u ∧ r = [] ∧ (∀ c ∈ u, versionChar c = true) := by
  intro v
  induction v with
  | nil =>
    intro cur acc t r h
    simp only [buildLoop] at h
    split at h
    · exact absurd h (by simp)
    · simp only [Option.some.injEq, Prod.mk.injEq] at h
      exact ⟨[], by simp [h.1], rfl, h.2.symm, by simp⟩
  | cons c cs ih =>
    intro cur acc t r h
    simp only [buildLoop] at h
    split at h
    · exact absurd h (by simp)
    · rename_i hok
      have hvc : versionChar c = true := by
        unfold versionChar
        simp only [Bool.and_eq_true, Bool.not_eq_true', bne_iff_ne, ne_eq, not_and,
          Bool.not_eq_false, Decidable.not_not] at hok
        cases hi : isIdentChar c with
        | true => simp
        | false =>
          have := hok hi
          simp [this]
      split at h
      · split at h
        · exact absurd h (by simp)
        · obtain ⟨u, hu1, hu2, hu3, hu4⟩ := ih [] (c :: acc) t r h
          refine ⟨c :: u, by simp [hu1], by simp [hu2], hu3, ?_⟩
          intro x hx
          rcases List.mem_cons.mp hx with hx1 | hx1
          · rw [hx1]; exact hvc
          · exact hu4 x hx1
      · obtain ⟨u, hu1, hu2, hu3, hu4⟩ := ih (c :: cur) (c :: acc) t r h
        refine ⟨c :: u, by simp [hu1], by simp [hu2], hu3, ?_⟩
        intro x hx
        rcases List.mem_cons.mp hx with hx1 | hx1
        · rw [hx1]; exact hvc
        · exact hu4 x hx1

theorem parseBuild_chars (v t r : List Char) (h : parseBuild v = some (t, r)) :
    r = [] ∧ ∀ c ∈ v, versionChar c = true := by
  cases v with
  | nil => simp [parseBuild] at h
  | cons c cs =>
    simp only [parseBuild] at h
    split at h
    · exact absurd h (by simp)
    · rename_i hc
      have hc2 : c = '+' := by simpa using hc
      obtain ⟨u, _, hu2, hu3, hu4⟩ := buildLoop_chars cs [] [c] t r h
      refine ⟨hu3, ?_⟩
      intro x hx
      rcases List.mem_cons.mp hx with hx1 | hx1
      · rw [hx1, hc2]; decide
      · rw [hu2] at hx1
        exact hu4 x hx1

theorem buildPart_chars (v1 build v2 : List Char)
    (h : (match v1 with
      | '+' :: _ => parseBuild v1
      | _ => some ([], v1)) = some (build, v2)) (hv2 : v2.isEmpty = true) :
    ∀ c ∈ v1, versionChar c = true := by
  have hv2n : v2 = [] := by simpa using hv2
  split at h
  · exact (parseBuild_chars _ _ _ h).2
  · simp only [Option.some.injEq, Prod.mk.injEq] at h
    rw [h.2, hv2n]
    simp

theorem parseTail_chars (major minor patch v : List Char) (p : parsed)
    (h : parseTail major minor patch v = some p) : ∀ c ∈ v, versionChar c = true := by
  unfold parseTail at h
  simp only at h
  split at h
  · exact absurd h (by simp)
  · rename_i prerelease v1 hpre
    split at h
    · exact absurd h (by simp)
    · rename_i build v2 hbld
      split at h
      · rename_i hv2
        have hb := buildPart_chars v1 build v2 hbld hv2
        split at hpre
        · obtain ⟨hu1, hu2⟩ := parsePrerelease_chars _ _ _ hpre
          intro x hx
          rw [hu1] at hx
          rcases List.mem_append.mp hx with hx2 | hx2
          · exact hu2 x hx2
          · exact hb x hx2
        · simp only [Option.some.injEq, Prod.mk.injEq] at hpre
          rw [hpre.2]
          exact hb
      · exact absurd h (by simp)

theorem parse_chars (v : List Char) (p : parsed) (h : parse v = some p) :
    ∀ c ∈ v, versionChar c = true := by
  unfold parse at h
  split at h
  · rename_i v0
    have hv : versionChar 'v' = true := by decide
    have hdot : versionChar '.' = true := by decide
    split at h
    · exact absurd h (by simp)
    · rename_i major h0
      obtain ⟨e0, d0⟩ := parseInt_chars _ _ _ h0
      intro c hc
      rcases List.mem_cons.mp hc with h1 | h1
      · rw [h1]; exact hv
      · rw [e0] at h1
        simp only [List.append_nil] at h1
        exact d0 c h1
    · rename_i major v1 h0
      obtain ⟨e0, d0⟩ := parseInt_chars _ _ _ h0
      split at h
      · exact absurd h (by simp)
      · rename_i minor h1
        obtain ⟨e1, d1⟩ := parseInt_chars _ _ _ h1
        intro c hc
        rcases List.mem_cons.mp hc with h2 | h2
        · rw [h2]; exact hv
        · rw [e0, e1] at h2
          simp only [List.append_nil, List.mem_append, List.mem_cons] at h2
          rcases h2 with h3 | h3 | h3
          · exact d0 c h3
          · rw [h3]; exact hdot
          · exact d1 c h3
      · rename_i minor v2 h1
        obtain ⟨e1, d1⟩ := parseInt_chars _ _ _ h1
        split at h
        · exact absurd h (by simp)
        · rename_i patch v3 h2
          obtain ⟨e2, d2⟩ := parseInt_chars _ _ _ h2
          have d3 := parseTail_chars _ _ _ _ p h
          intro c hc
          rcases List.mem_cons.mp hc with h4 | h4
          · rw [h4]; exact hv
          · rw [e0, e1, e2] at h4
            simp only [List.mem_append, List.mem_cons] at h4
            rcases h4 with h5 | h5 | h5 | h5 | h5 | h5
            · exact d0 c h5
            · rw [h5]; exact hdot
            · exact d1 c h5
            · rw [h5]; exact hdot
            · exact d2 c h5
            · exact d3 c h5
      · exact absurd h (by simp)
    · exact absurd h (by simp)
  · exact absurd h (by simp)

end semver

theorem dropWhile_of_no_space (l : List Char) (h : ∀ c ∈ l, isSpace c = false) :
    l.dropWhile isSpace = l := by
  cases l with
  | nil => rfl
  | cons c cs => simp [List.dropWhile, h c (List.mem_cons_self _ _)]

/-- A valid semantic version is a plain version. -/
theorem PlainVersion_of_valid (v : String) (h : semver.IsValid v = true) : PlainVersion v := by
  have hne := semver.IsValid_ne_empty v h
  unfold semver.IsValid at h
  cases hp : semver.parse v.data with
  | none => rw [hp] at h; simp at h
  | some p =>
    have hchars : ∀ c ∈ v.data, isSpace c = false :=
      fun c hc => semver.versionChar_not_space c (semver.parse_chars _ _ hp c hc)
    refine ⟨hne, ?_, ?_⟩
    · unfold TrimSpace
      rw [trim_of_ends _ (dropWhile_of_no_space _ hchars)
        (dropWhile_of_no_space _ (fun c hc => hchars c (List.mem_reverse.mp hc)))]
    · intro hmem
      have := hchars '\n' hmem
      exact absurd this (by decide)

/-! ## Properties of the sort -/

namespace module

theorem mem_insertBack (v x : Version) : ∀ l : List Version,
    v ∈ insertBack x l ↔ v = x ∨ v ∈ l := by
  intro l
  induction l with
  | nil => simp [insertBack]
  | cons y ys ih =>
    simp only [insertBack]
    split
    · simp only [List.mem_cons, ih]
      tauto
    · simp only [List.mem_cons]

theorem mem_foldl_insertBack (v : Version) : ∀ (l acc : List Version),
    v ∈ l.foldl (fun sorted x => insertBack x sorted) acc ↔ v ∈ acc ∨ v ∈ l := by
  intro l
  induction l with
  | nil => intro acc; simp
  | cons x xs ih =>
    intro acc
    rw [List.foldl_cons, ih, mem_insertBack]
    simp only [List.mem_cons]
    tauto

theorem mem_insertionSort (v : Version) (l : List Version) : v ∈ insertionSort l ↔ v ∈ l := by
  unfold insertionSort
  rw [List.mem_reverse, mem_foldl_insertBack]
  simp

theorem mem_SortList (sortLong : List Version → List Version)
    (hperm : ∀ l, (sortLong l).Perm l) (v : Version) (l : List Version) :
    v ∈ SortList sortLong l ↔ v ∈ l := by
  unfold SortList
  split
  · exact mem_insertionSort v l
  · exact (hperm l).mem_iff

end module

/-! ## Saving and loading the version list -/

theorem ReadFile_ok (d : Disk) (p c : String) (h : d.ReadFile p = .ok c) :
    d.walk [] (resolvePath p) = .ok (.file c) := by
  unfold Disk.ReadFile at h
  split at h
  · exact absurd h (by simp)
  · exact absurd h (by simp)
  · rename_i content hw
    simp only [Except.ok.injEq] at h
    rw [hw, h]

theorem ReadFile_of_walk (d : Disk) (p c : String)
    (h : d.walk [] (resolvePath p) = .ok (.file c)) : d.ReadFile p = .ok c := by
  unfold Disk.ReadFile
  rw [h]

theorem prepareVersFolder_of_dir (f : ModuleProxyFolder) (d : Disk)
    (h : d.walk [] (resolvePath f.FolderPath ++ ["@v"]) = .ok .dir) :
    f.prepareVersFolder d = (.ok (), { f with hasVersFolder := true }, d) := by
  unfold ModuleProxyFolder.prepareVersFolder
  cases hf : f.hasVersFolder with
  | true =>
    simp only [if_true]
    cases f
    simp only at hf
    rw [hf]
  | false =>
    simp only [Bool.false_eq_true, if_false]
    unfold Disk.Stat
    rw [resolvePath_versFolder, h]

theorem Create_of_file (d : Disk) (p : String) (q : List String) (e c : String)
    (hp : resolvePath p = q ++ [e]) (hq : d.walk [] q = .ok .dir)
    (hn : d.node (q ++ [e]) = some (.file c)) :
    d.Create p = .ok (d.set (q ++ [e]) (.file "")) := by
  unfold Disk.Create
  simp only [hp, List.dropLast_concat, hq, hn]
  simp

theorem SaveVersionList_of_file (t : Toolchain) (f : ModuleProxyFolder) (d : Disk) (c : String)
    (vers : List module.Version)
    (hwalk : d.walk [] (resolvePath f.listFilePath) = .ok (.file c)) :
    f.SaveVersionList t d vers =
      (.ok (), { f with hasVersFolder := true },
        (d.set (resolvePath f.listFilePath) (.file "")).set (resolvePath f.listFilePath)
          (.file (String.mk (renderList (module.SortList t.sortLong vers))))) := by
  have hP := resolvePath_listFile f
  rw [hP] at hwalk
  obtain ⟨hq, hn⟩ := walk_file_parent d _ _ _ hwalk
  unfold ModuleProxyFolder.SaveVersionList
  simp only [prepareVersFolder_of_dir f d hq]
  rw [Create_of_file d f.listFilePath _ _ c hP hq hn]
  simp only [Disk.Write, hP]

theorem LoadVersionList_after_write (f : ModuleProxyFolder) (d : Disk) (c content : String)
    (hwalk : d.walk [] (resolvePath f.listFilePath) = .ok (.file c)) :
    ModuleProxyFolder.LoadVersionList { f with hasVersFolder := true }
        ((d.set (resolvePath f.listFilePath) (.file "")).set (resolvePath f.listFilePath)
          (.file content))
      = loadLoop f.ModulePath (scanTokens content.data) := by
  have hP := resolvePath_listFile f
  rw [hP] at hwalk
  obtain ⟨hq, _⟩ := walk_file_parent d _ _ _ hwalk
  unfold ModuleProxyFolder.LoadVersionList
  have hpath : ModuleProxyFolder.listFilePath { f with hasVersFolder := true }
      = f.listFilePath := rfl
  rw [hpath]
  have hq2 : (d.set (resolvePath f.FolderPath ++ ["@v"] ++ ["list"]) (.file "")).walk []
      (resolvePath f.FolderPath ++ ["@v"]) = .ok .dir := by
    rw [walk_set_parent]
    exact hq
  have hread := ReadFile_of_walk
    ((d.set (resolvePath f.listFilePath) (.file "")).set (resolvePath f.listFilePath)
      (.file content)) f.listFilePath content
    (by rw [hP]; exact walk_set_file _ _ _ _ hq2)
  rw [hread]

/-- A second call of `AddVersionToList` with a plain version leaves the folder
value and the disk as the first call left them. -/
theorem AddVersionToList_plain (t : Toolchain) (f : ModuleProxyFolder) (d : Disk)
    (ver : String) (hsort : ∀ l, (t.sortLong l).Perm l) (hv : PlainVersion ver) :
    ((f.AddVersionToList t d ver).2.1.AddVersionToList t (f.AddVersionToList t d ver).2.2 ver).2
      = (f.AddVersionToList t d ver).2 := by
  cases hload : f.LoadVersionList d with
  | error err =>
    have hadd : f.AddVersionToList t d ver = (.error err, f, d) := by
      unfold ModuleProxyFolder.AddVersionToList
      rw [hload]
    rw [hadd]
    simp only [hadd]
  | ok vers =>
    by_cases hany : vers.any (fun v => decide (v.Version = ver)) = true
    · have hadd : f.AddVersionToList t d ver = (.ok (), f, d) := by
        unfold ModuleProxyFolder.AddVersionToList
        rw [hload]
        simp only [hany, if_true]
      rw [hadd]
      simp only [hadd]
    · obtain ⟨content, hread⟩ : ∃ content, d.ReadFile f.listFilePath = .ok content := by
        unfold ModuleProxyFolder.LoadVersionList at hload
        cases hr : d.ReadFile f.listFilePath with
        | error err => rw [hr] at hload; simp at hload
        | ok content => exact ⟨content, rfl⟩
      have hwalk := ReadFile_ok d _ _ hread
      have hloaded : loadLoop f.ModulePath (scanTokens content.data) = .ok vers := by
        unfold ModuleProxyFolder.LoadVersionList at hload
        rw [hread] at hload
        exact hload
      have hplain := loadLoop_plain f.ModulePath _ vers (scanTokens_no_newline _) hloaded
      have hadd : f.AddVersionToList t d ver =
          (.ok (), { f with hasVersFolder := true },
            (d.set (resolvePath f.listFilePath) (.file "")).set (resolvePath f.listFilePath)
              (.file (String.mk (renderList
                (module.SortList t.sortLong (vers ++ [⟨f.ModulePath, ver⟩])))))) := by
        unfold ModuleProxyFolder.AddVersionToList
        rw [hload]
        simp only [hany, Bool.false_eq_true, if_false]
        exact SaveVersionList_of_file t f d content _ hwalk
      have hsorted : ∀ v ∈ module.SortList t.sortLong (vers ++ [⟨f.ModulePath, ver⟩]),
          v.Path = f.ModulePath ∧ PlainVersion v.Version := by
        intro v hmem
        rw [module.mem_SortList _ hsort, List.mem_append, List.mem_singleton] at hmem
        rcases hmem with h | h
        · exact hplain v h
        · rw [h]
          exact ⟨rfl, hv⟩
      have hload2 := LoadVersionList_after_write f d content
        (String.mk (renderList (module.SortList t.sortLong (vers ++ [⟨f.ModulePath, ver⟩]))))
        hwalk
      have hany2 : (module.SortList t.sortLong (vers ++ [⟨f.ModulePath, ver⟩])).any
          (fun v => decide (v.Version = ver)) = true := by
        rw [List.any_eq_true]
        refine ⟨⟨f.ModulePath, ver⟩, ?_, by simp⟩
        rw [module.mem_SortList _ hsort]
        simp
      rw [hadd]
      simp only
      unfold ModuleProxyFolder.AddVersionToList
      rw [hload2]
      rcases loadLoop_render f.ModulePath _ hsorted with h | h
      · rw [h]
        simp only [hany2, if_true]
      · rw [h]


namespace module

theorem perm_insertBack (x : Version) : ∀ l : List Version, (insertBack x l).Perm (x :: l) := by
  intro l
  induction l with
  | nil => exact List.Perm.refl _
  | cons y ys ih =>
    simp only [insertBack]
    split
    · exact ((List.Perm.cons y ih).trans (List.Perm.swap x y ys))
    · exact List.Perm.refl _

theorem perm_foldl_insertBack : ∀ (l acc : List Version),
    (l.foldl (fun sorted x => insertBack x sorted) acc).Perm (l ++ acc) := by
  intro l
  induction l with
  | nil => intro acc; exact List.Perm.refl _
  | cons x xs ih =>
    intro acc
    rw [List.foldl_cons]
    refine (ih (insertBack x acc)).trans ?_
    refine (List.Perm.append_left xs (perm_insertBack x acc)).trans ?_
    simp only [List.cons_append]
    exact List.perm_middle

theorem perm_insertionSort (l : List Version) : (insertionSort l).Perm l := by
  unfold insertionSort
  refine (List.reverse_perm _).trans ?_
  have := perm_foldl_insertBack l []
  simpa using this

end module

/-- C4: `AddVersionToList` is idempotent. For every store state and every
version string `ver` (a valid semantic version, as release tags and
pseudo-versions are), calling `AddVersionToList(ver)` twice leaves the same
folder value and disk, hence the same list-file content and the same list as
read back by `LoadVersionList`, as calling it once. The order in which the
library sorts a slice of more than 12 entries is any permutation. -/
theorem AddVersionToList_idempotent (t : Toolchain) (f : ModuleProxyFolder) (d : Disk)
    (ver : String) (hsort : ∀ l, (t.sortLong l).Perm l) (hv : semver.IsValid ver = true) :
    ((f.AddVersionToList t d ver).2.1.AddVersionToList t (f.AddVersionToList t d ver).2.2 ver).2
      = (f.AddVersionToList t d ver).2 ∧
    ((f.AddVersionToList t d ver).2.1.AddVersionToList t
        (f.AddVersionToList t d ver).2.2 ver).2.1.LoadVersionList
      ((f.AddVersionToList t d ver).2.1.AddVersionToList t
        (f.AddVersionToList t d ver).2.2 ver).2.2
      = (f.AddVersionToList t d ver).2.1.LoadVersionList (f.AddVersionToList t d ver).2.2 := by
  have h := AddVersionToList_plain t f d ver hsort (PlainVersion_of_valid ver hv)
  refine ⟨h, ?_⟩
  rw [h]

/-- The statement of C4 at a store listing `v1.0.0` and the version `v0.9.0`. -/
theorem AddVersionToList_idempotent_witness :
    semver.IsValid "v0.9.0" = true ∧
    (fooFolder.AddVersionToList libToolchain (listDisk "v1.0.0\n") "v0.9.0").2.2
      = listDisk "v0.9.0\nv1.0.0\n" ∧
    ((fooFolder.AddVersionToList libToolchain (listDisk "v1.0.0\n") "v0.9.0").2.1.AddVersionToList
      libToolchain
      (fooFolder.AddVersionToList libToolchain (listDisk "v1.0.0\n") "v0.9.0").2.2 "v0.9.0").2
      = (fooFolder.AddVersionToList libToolchain (listDisk "v1.0.0\n") "v0.9.0").2 := by
  exact ⟨by decide, by decide,
    (AddVersionToList_idempotent libToolchain fooFolder (listDisk "v1.0.0\n") "v0.9.0"
      module.perm_insertionSort (by decide)).1⟩

/-- Outside valid versions the list file does not always give a string back:
`v1.0.0 ` with a trailing blank is read back as `v1.0.0`, so a second call
appends it again. -/
theorem AddVersionToList_blank_string :
    semver.IsValid "v1.0.0 " = false ∧
    (fooFolder.AddVersionToList libToolchain (listDisk "") "v1.0.0 ").2.2
      = listDisk "v1.0.0 \n" ∧
    ((fooFolder.AddVersionToList libToolchain (listDisk "") "v1.0.0 ").2.1.AddVersionToList
        libToolchain
        (fooFolder.AddVersionToList libToolchain (listDisk "") "v1.0.0 ").2.2 "v1.0.0 ").2.2
      = listDisk "v1.0.0 \nv1.0.0\n" := by
  refine ⟨by decide, by decide, by decide⟩

/-! ## Escaped identifiers on disk -/

namespace module

theorem escaped_data (s : String) : (escaped s).data = escapeChars s.data := by
  unfold escaped
  rw [escapeChars_eq_flatMap]

theorem escapeString_eq (s e : String) (h : escapeString s = .ok e) :
    e = escaped s ∧ '!' ∉ s.data := by
  obtain ⟨h1, h2⟩ := escapeString_ok s e h
  refine ⟨?_, h2⟩
  apply String.ext
  rw [h1, escaped_data]

theorem escaped_injective (a b : String) (ha : '!' ∉ a.data) (hb : '!' ∉ b.data)
    (h : escaped a = escaped b) : a = b := by
  apply String.ext
  apply escapeChars_injective _ _ ha hb
  rw [← escaped_data, ← escaped_data, h]

theorem lower_ne_slash (r : Char) (h : isUpper r = true) : lower r ≠ '/' := by
  intro h2
  have h1 := toNat_lower r h
  rw [h2] at h1
  have h3 : '/'.toNat = 47 := rfl
  rw [isUpper_iff] at h
  omega

theorem mem_escapeChars : ∀ (l : List Char), ∀ c ∈ escapeChars l,
    c = '!' ∨ (∃ r, isUpper r = true ∧ c = lower r) ∨ c ∈ l := by
  intro l
  induction l with
  | nil => intro c hc; exact absurd hc (List.not_mem_nil _)
  | cons r rs ih =>
    intro c hc
    simp only [escapeChars] at hc
    cases hu : isUpper r with
    | true =>
      simp only [hu, if_true, List.mem_cons] at hc
      rcases hc with h | h | h
      · exact Or.inl h
      · exact Or.inr (Or.inl ⟨r, hu, h⟩)
      · rcases ih c h with h2 | h2 | h2
        · exact Or.inl h2
        · exact Or.inr (Or.inl h2)
        · exact Or.inr (Or.inr (List.mem_cons_of_mem _ h2))
    | false =>
      simp only [hu, Bool.false_eq_true, if_false, List.mem_cons] at hc
      rcases hc with h | h
      · exact Or.inr (Or.inr (by rw [h]; exact List.mem_cons_self _ _))
      · rcases ih c h with h2 | h2 | h2
        · exact Or.inl h2
        · exact Or.inr (Or.inl h2)
        · exact Or.inr (Or.inr (List.mem_cons_of_mem _ h2))

theorem escapeChars_no_slash (l : List Char) (h : '/' ∉ l) : '/' ∉ escapeChars l := by
  intro hmem
  rcases mem_escapeChars l '/' hmem with h1 | ⟨r, hr, h1⟩ | h1
  · exact absurd h1 (by decide)
  · exact lower_ne_slash r hr h1.symm
  · exact h h1

theorem escapeChars_eq_nil (l : List Char) (h : escapeChars l = []) : l = [] := by
  cases l with
  | nil => rfl
  | cons r rs =>
    simp only [escapeChars] at h
    split at h <;> simp at h

theorem splitOn_escapeChars : ∀ l : List Char,
    splitOn '/' (escapeChars l) = (splitOn '/' l).map escapeChars := by
  intro l
  induction l with
  | nil => rfl
  | cons c cs ih =>
    have hne := splitOn_ne_nil '/' cs
    by_cases hc : c = '/'
    · subst hc
      have hu : isUpper '/' = false := by decide
      simp only [escapeChars, hu, Bool.false_eq_true, if_false, splitOn, if_true, List.map_cons,
        ih]
    · cases hu : isUpper c with
      | false =>
        simp only [escapeChars, hu, Bool.false_eq_true, if_false, splitOn, hc, ih]
        cases hs : splitOn '/' cs with
        | nil => exact absurd hs hne
        | cons l0 ls0 => simp [escapeChars, hu]
      | true =>
        have h1 : ¬ ('!' : Char) = '/' := by decide
        have h2 : ¬ lower c = '/' := lower_ne_slash c hu
        simp only [escapeChars, hu, if_true, splitOn, hc, h1, h2, if_false, ih]
        cases hs : splitOn '/' cs with
        | nil => exact absurd hs hne
        | cons l0 ls0 => simp [escapeChars, hu]

end module

theorem realElems_escaped (p : String) (hbang : '!' ∉ p.data)
    (hreal : ∀ e ∈ splitOn '/' p.data, e ≠ [] ∧ e ≠ ['.'] ∧ e ≠ ['.', '.']) :
    ∀ e ∈ pathElems (module.escaped p), RealElem e := by
  intro e he
  have hslash := pathElems_no_slash _ e he
  unfold pathElems at he
  rw [List.mem_map] at he
  obtain ⟨l, hl, hle⟩ := he
  rw [module.escaped_data, module.splitOn_escapeChars, List.mem_map] at hl
  obtain ⟨x, hx, hxl⟩ := hl
  obtain ⟨r1, r2, r3⟩ := hreal x hx
  have hxb : '!' ∉ x := fun h => hbang (splitOn_mem '/' p.data x hx '!' h)
  have hl1 : l ≠ [] := by
    intro h
    rw [h] at hxl
    exact r1 (module.escapeChars_eq_nil x hxl)
  have hl2 : l ≠ ['.'] := by
    intro h
    apply r2
    apply module.escapeChars_injective x ['.'] hxb (by decide)
    rw [hxl, h]
    decide
  have hl3 : l ≠ ['.', '.'] := by
    intro h
    apply r3
    apply module.escapeChars_injective x ['.', '.'] hxb (by decide)
    rw [hxl, h]
    decide
  rw [← hle]
  refine ⟨?_, ?_, ?_, ?_⟩
  · intro h
    exact hl1 (congrArg String.data h)
  · intro h
    exact hl2 (congrArg String.data h)
  · intro h
    exact hl3 (congrArg String.data h)
  · rw [← hle] at hslash
    exact hslash

theorem resolvePath_folder (base e : String) (hreal : ∀ x ∈ pathElems e, RealElem x) :
    resolvePath (Join [base, e]) = resolvePath base ++ pathElems e := by
  rw [resolvePath_Join_pair, foldl_resolveStep_real _ _ hreal]

theorem resolvePath_versioned (F name : String) (hreal : RealElem name) :
    resolvePath (Join [F, moduleVersFolderName, name]) = resolvePath F ++ ["@v", name] := by
  rw [resolvePath_Join_triple _ _ _ (by decide)]
  have h1 : pathElems moduleVersFolderName = ["@v"] := by decide
  rw [h1, pathElems_of_no_slash name hreal.2.2.2]
  have h2 : RealElem "@v" := ⟨by decide, by decide, by decide, by decide⟩
  rw [foldl_resolveStep_real ["@v"] _ (by simpa using h2),
    foldl_resolveStep_real [name] _ (by simpa using hreal)]
  simp

theorem realElem_versioned (ev suffix : String) (hev : ev ≠ "") (hslash : '/' ∉ ev.data)
    (hs : suffix ≠ "") (hss : '/' ∉ suffix.data) : RealElem (ev ++ "." ++ suffix) := by
  have hlen : (ev ++ "." ++ suffix).length ≥ 3 := by
    simp only [String.length_append]
    have h1 : ".".length = 1 := rfl
    have h2 : 0 < ev.length := by
      rcases Nat.eq_zero_or_pos ev.length with h | h
      · exact absurd (String.ext (List.length_eq_zero.mp h)) hev
      · exact h
    have h3 : 0 < suffix.length := by
      rcases Nat.eq_zero_or_pos suffix.length with h | h
      · exact absurd (String.ext (List.length_eq_zero.mp h)) hs
      · exact h
    omega
  refine ⟨?_, ?_, ?_, ?_⟩
  · intro h
    rw [h] at hlen
    exact absurd hlen (by decide)
  · intro h
    rw [h] at hlen
    exact absurd hlen (by decide)
  · intro h
    rw [h] at hlen
    exact absurd hlen (by decide)
  · simp only [String.data_append, List.mem_append, not_or]
    exact ⟨⟨hslash, by decide⟩, hss⟩

theorem NewModuleProxyFolder_ok (t : Toolchain) (base p : String) (fp : ModuleProxyFolder)
    (h : NewModuleProxyFolder t base p = .ok fp) :
    ∃ base1, (base ≠ "" → base1 = base) ∧
      (base = "" → DefaultModuleProxyBaseFolder t = .ok base1) ∧
      t.checkPath p = true ∧ '!' ∉ p.data ∧
      fp = ⟨Join [base1, module.escaped p], p, false⟩ := by
  unfold NewModuleProxyFolder at h
  simp only at h
  split at h
  · exact absurd h (by simp)
  · rename_i base1 hb
    split at h
    · exact absurd h (by simp)
    · rename_i e he
      simp only [Except.ok.injEq] at h
      unfold module.EscapePath at he
      split at he
      · exact absurd he (by simp)
      · rename_i hchk
        obtain ⟨h1, h2⟩ := module.escapeString_eq p e he
        refine ⟨base1, ?_, ?_, by simpa using hchk, h2, by rw [← h, h1]⟩
        · intro hne
          rw [if_neg hne] at hb
          simp only [Except.ok.injEq] at hb
          exact hb.symm
        · intro heq
          rw [if_pos heq] at hb
          exact hb

theorem createVersionedFile_ok (t : Toolchain) (f : ModuleProxyFolder) (d : Disk)
    (v suffix path : String) (f1 : ModuleProxyFolder) (d1 : Disk)
    (h : f.createVersionedFile t d v suffix = (.ok path, f1, d1)) :
    t.checkElem v = true ∧ '!' ∉ v.data ∧
      path = f.versionedFilePath (module.escaped v) suffix := by
  unfold ModuleProxyFolder.createVersionedFile at h
  split at h
  · simp at h
  · rename_i ev hev
    unfold module.EscapeVersion at hev
    split at hev
    · exact absurd hev (by simp)
    · rename_i hchk
      obtain ⟨h1, h2⟩ := module.escapeString_eq v ev hev
      have hc : t.checkElem v = true := by
        cases hcv : t.checkElem v with
        | true => rfl
        | false => rw [hcv] at hchk; simp at hchk
      refine ⟨hc, h2, ?_⟩
      split at h
      · simp at h
      · simp only at h
        split at h
        · simp at h
        · simp only [Prod.mk.injEq, Except.ok.injEq] at h
          rw [← h.1, h1]

theorem libToolchain_sound : libToolchain.Sound := by
  constructor
  · intro p hp e he
    have hp2 : module.pathChecks p = true := hp
    unfold module.pathChecks at hp2
    simp only [Bool.and_eq_true, List.all_eq_true] at hp2
    have hel := hp2.1.2 e he
    unfold module.elemChecks at hel
    simp only [Bool.and_eq_true, Bool.not_eq_true', List.isEmpty_eq_false] at hel
    obtain ⟨⟨⟨⟨⟨h1, h2⟩, _⟩, _⟩, _⟩, _⟩ := hel
    refine ⟨?_, ?_, ?_⟩
    · intro h
      rw [h] at h1
      simp at h1
    · intro h
      rw [h] at h2
      simp at h2
    · intro h
      rw [h] at h2
      simp at h2
  · intro v hv
    have hv2 : module.fileElemChecks v = true := hv
    unfold module.fileElemChecks module.elemChecks at hv2
    simp only [Bool.and_eq_true, Bool.not_eq_true', List.all_eq_true] at hv2
    obtain ⟨⟨⟨⟨⟨h1, _⟩, _⟩, _⟩, h5⟩, _⟩ := hv2
    constructor
    · intro h
      rw [h] at h1
      simp at h1
    · intro hmem
      have := h5 '/' hmem
      exact absurd this (by decide)

theorem pathElems_injective (a b : String) (h : pathElems a = pathElems b) : a = b := by
  unfold pathElems at h
  have h2 := congrArg (List.map String.data) h
  simp only [List.map_map] at h2
  have hid : (String.data ∘ String.mk) = id := rfl
  rw [hid, List.map_id, List.map_id] at h2
  exact String.ext (splitOn_injective '/' _ _ h2)

theorem escaped_ne_empty (v : String) (hv : v ≠ "") : module.escaped v ≠ "" := by
  intro h
  apply hv
  apply String.ext
  apply module.escapeChars_eq_nil
  rw [← module.escaped_data, h]

theorem escaped_no_slash (v : String) (hv : '/' ∉ v.data) : '/' ∉ (module.escaped v).data := by
  rw [module.escaped_data]
  exact module.escapeChars_no_slash _ hv

theorem append_suffix_cancel (a b suffix : String)
    (h : a ++ "." ++ suffix = b ++ "." ++ suffix) : a = b := by
  have hd := congrArg String.data h
  simp only [String.data_append, List.append_assoc] at hd
  exact String.ext (List.append_cancel_right hd)

/-- C10 (as amended): the escaping that `NewModuleProxyFolder` applies to
module paths and `createVersionedFile` to versions replaces every upper-case
letter by `!` and its lower-case form and leaves no upper-case letter; the
folder path is the base folder joined with the escaped module path, the file
path is the folder path joined with `@v` and the escaped version with its
suffix; two distinct accepted module paths (or versions), also two that differ
only in letter case, resolve to distinct places on disk. The module path
`example.com/Foo/Bar` escapes to `example.com/!foo/!bar` and the version
`v1.0.0-RC1` to `v1.0.0-!r!c1`. The validators of the library are any that
refuse empty, `.` and `..` path elements and empty versions and versions with
a slash. -/
theorem escaping_injective (t : Toolchain) (hs : t.Sound) :
    (∀ s, ∀ c ∈ (module.escaped s).data, module.isUpper c = false) ∧
    (∀ base p fp, NewModuleProxyFolder t base p = .ok fp →
      fp.ModulePath = p ∧
      ∃ base1, (base ≠ "" → base1 = base) ∧
        fp.FolderPath = Join [base1, module.escaped p] ∧
        resolvePath fp.FolderPath = resolvePath base1 ++ pathElems (module.escaped p)) ∧
    (∀ base p q fp fq, NewModuleProxyFolder t base p = .ok fp →
      NewModuleProxyFolder t base q = .ok fq → p ≠ q →
      resolvePath fp.FolderPath ≠ resolvePath fq.FolderPath) ∧
    (∀ (f : ModuleProxyFolder) d v suffix path f1 d1,
      f.createVersionedFile t d v suffix = (.ok path, f1, d1) →
      path = Join [f.FolderPath, moduleVersFolderName, module.escaped v ++ "." ++ suffix] ∧
      (suffix ≠ "" → '/' ∉ suffix.data →
        resolvePath path
          = resolvePath f.FolderPath ++ ["@v", module.escaped v ++ "." ++ suffix])) ∧
    (∀ (f : ModuleProxyFolder) d d2 v w suffix pv pw fv dv fw dw,
      f.createVersionedFile t d v suffix = (.ok pv, fv, dv) →
      f.createVersionedFile t d2 w suffix = (.ok pw, fw, dw) →
      v ≠ w → suffix ≠ "" → '/' ∉ suffix.data → resolvePath pv ≠ resolvePath pw) ∧
    NewModuleProxyFolder libToolchain "/cache" "example.com/Foo/Bar"
      = .ok ⟨"/cache/example.com/!foo/!bar", "example.com/Foo/Bar", false⟩ ∧
    (fooFolder.CreateZip libToolchain freshDisk "v1.0.0-RC1").1
      = .ok "/cache/example.com/foo/@v/v1.0.0-!r!c1.zip" := by
  have hfolder : ∀ base p fp, NewModuleProxyFolder t base p = .ok fp →
      ∃ base1, (base ≠ "" → base1 = base) ∧
        (base = "" → DefaultModuleProxyBaseFolder t = .ok base1) ∧ '!' ∉ p.data ∧
        fp = ⟨Join [base1, module.escaped p], p, false⟩ ∧
        resolvePath fp.FolderPath = resolvePath base1 ++ pathElems (module.escaped p) := by
    intro base p fp h
    obtain ⟨base1, h1, h2, h3, h4, h5⟩ := NewModuleProxyFolder_ok t base p fp h
    refine ⟨base1, h1, h2, h4, h5, ?_⟩
    rw [h5]
    exact resolvePath_folder _ _ (realElems_escaped p h4 (hs.1 p h3))
  have hfile : ∀ (f : ModuleProxyFolder) d v suffix path f1 d1,
      f.createVersionedFile t d v suffix = (.ok path, f1, d1) →
      '!' ∉ v.data ∧
      path = Join [f.FolderPath, moduleVersFolderName, module.escaped v ++ "." ++ suffix] ∧
      (suffix ≠ "" → '/' ∉ suffix.data →
        resolvePath path
          = resolvePath f.FolderPath ++ ["@v", module.escaped v ++ "." ++ suffix]) := by
    intro f d v suffix path f1 d1 h
    obtain ⟨h1, h2, h3⟩ := createVersionedFile_ok t f d v suffix path f1 d1 h
    obtain ⟨hne, hslash⟩ := hs.2 v h1
    refine ⟨h2, h3, ?_⟩
    intro hsuf hsufs
    rw [h3]
    exact resolvePath_versioned _ _
      (realElem_versioned _ _ (escaped_ne_empty v hne) (escaped_no_slash v hslash) hsuf hsufs)
  refine ⟨?_, ?_, ?_, ?_, ?_, by decide, by decide⟩
  · intro s c hc
    rw [module.escaped_data] at hc
    exact module.escapeChars_no_upper _ c hc
  · intro base p fp h
    obtain ⟨base1, h1, _, _, h5, h6⟩ := hfolder base p fp h
    refine ⟨by rw [h5], base1, h1, by rw [h5], h6⟩
  · intro base p q fp fq hp hq hne hres
    obtain ⟨b1, hb1, hb1d, hp4, _, hp6⟩ := hfolder base p fp hp
    obtain ⟨b2, hb2, hb2d, hq4, _, hq6⟩ := hfolder base q fq hq
    have hb : b1 = b2 := by
      by_cases hbase : base = ""
      · have e1 := hb1d hbase
        have e2 := hb2d hbase
        rw [e1] at e2
        simpa using e2
      · rw [hb1 hbase, hb2 hbase]
    rw [hp6, hq6, hb] at hres
    have hel := List.append_cancel_left hres
    exact hne (module.escaped_injective p q hp4 hq4 (pathElems_injective _ _ hel))
  · intro f d v suffix path f1 d1 h
    exact (hfile f d v suffix path f1 d1 h).2
  · intro f d d2 v w suffix pv pw fv dv fw dw hv hw hne hsuf hsufs hres
    obtain ⟨hv1, _, hv3⟩ := hfile f d v suffix pv fv dv hv
    obtain ⟨hw1, _, hw3⟩ := hfile f d2 w suffix pw fw dw hw
    rw [hv3 hsuf hsufs, hw3 hsuf hsufs] at hres
    have hel := List.append_cancel_left hres
    simp only [List.cons.injEq, true_and, and_true] at hel
    exact hne (module.escaped_injective v w hv1 hw1 (append_suffix_cancel _ _ _ hel))

/-- The statement of C10 (as amended) at the module paths `example.com/Foo` and
`example.com/foo`, which differ only in letter case. -/
theorem escaping_injective_witness :
    libToolchain.Sound ∧
    NewModuleProxyFolder libToolchain "/cache/" "example.com/Foo"
      = .ok ⟨"/cache/example.com/!foo", "example.com/Foo", false⟩ ∧
    NewModuleProxyFolder libToolchain "/cache/" "example.com/foo"
      = .ok ⟨"/cache/example.com/foo", "example.com/foo", false⟩ ∧
    resolvePath "/cache/example.com/!foo" ≠ resolvePath "/cache/example.com/foo" := by
  have h := (escaping_injective libToolchain libToolchain_sound).2.2.1 "/cache/"
    "example.com/Foo" "example.com/foo"
    ⟨"/cache/example.com/!foo", "example.com/Foo", false⟩
    ⟨"/cache/example.com/foo", "example.com/foo", false⟩
    (by decide) (by decide) (by decide)
  exact ⟨libToolchain_sound, by decide, by decide, h⟩

/-- C10 (as stated) fails at its example: `Foo/Bar` is accepted neither as a
module path (its first element holds no dot and holds an upper-case letter)
nor as a version (it holds a slash), so `NewModuleProxyFolder` and
`createVersionedFile` return an error for it and escape nothing. -/
theorem escaping_example_counterexample :
    NewModuleProxyFolder libToolchain "/cache" "Foo/Bar" = .error (.InvalidPathError "Foo/Bar") ∧
    (fooFolder.createVersionedFile libToolchain freshDisk "Foo/Bar" "zip").1
      = .error (.InvalidVersionError "Foo/Bar") ∧
    (fooFolder.createVersionedFile libToolchain freshDisk "Foo/Bar" "zip").2
      = (fooFolder, freshDisk) := by
  refine ⟨by decide, by decide, by decide⟩

end GoModBuild
